import Mathlib

/-
Verification of the git-iter linear commit iterator (`git-iter.py`).

The script is a stateful CLI: each invocation loads a JSON state file,
talks to git through subprocesses, mutates the state and persists it.
We embed one invocation of each subcommand as a pure Lean function from
  * a `GitRepo` value — the external git collaborator's answers for this
    invocation (revision resolution, ancestry test, `rev-list` output,
    current HEAD, worktree cleanliness), and
  * the persisted state on disk (`Option IterState`, `none` = no state
    file, mirroring `load_state()` returning `None`),
to an `Outcome` recording the process exit code, the state left on disk
(every `save_state` call updates it), the commits checked out, the
messages printed, and the `build_sequence` invocations performed.
Unhandled Python exceptions (e.g. passing `None` to `subprocess.run`, or
an out-of-range list index) are modelled by the `crashed` flag: the
process dies without further saves.
-/

set_option maxRecDepth 8000

namespace GitIter

/-! ### Data model and operations (translated from git-iter.py) -/

/-- Persisted iteration state: the key/value pairs of `state.json` as seen
after `load_state()` normalization (`setdefault` fills the seven standard
keys; the `_warned_head` bookkeeping key is read with `.get`, so an absent
key behaves as `none`). -/
structure IterState where
  original_ref : Option String
  original_head : Option String
  first : Option String
  last : Option String
  pathspec : List String
  sequence : Option (List String)
  index : Int
  warned_head : Option String
deriving DecidableEq, Repr

/-- The external git collaborator, fixed for one invocation.
`resolve` is `git rev-parse --verify` (`none` = failure, the script exits 1);
`isAncestor` is `git merge-base --is-ancestor first last` (true = exit 0);
`revListRange f l ps` is the non-empty lines of
`git rev-list --reverse --first-parent --ancestry-path f..l [-- ps]`;
`revListRootToHead` is the non-empty lines of
`git rev-list --reverse --first-parent HEAD`;
`headSha` is `git rev-parse --verify HEAD`;
`symbolicHead` is `git symbolic-ref -q --short HEAD` (`none` = detached);
`clean` is `is_worktree_clean()`. HEAD is only read before any checkout
within a single invocation, so a constant field is faithful. -/
structure GitRepo where
  resolve : String → Option String
  isAncestor : String → String → Bool
  revListRange : String → String → List String → List String
  revListRootToHead : List String
  headSha : String
  symbolicHead : Option String
  clean : Bool

/-- Messages printed to stdout by the script, one constructor per
`print(...)` call site. -/
inductive Msg where
  | alreadyLast
  | alreadyFirst
  | status (sha : String) (idx : Int) (total : Nat)
  | sequencePrepared (n : Nat)
  | firstSet (sha : String)
  | lastSet (sha : String)
  | completedRun (n : Nat)
  | resetTo (target : String)
deriving DecidableEq, Repr

/-- Messages printed to stderr, one constructor per `print(..., file=sys.stderr)`
call site reachable from the modelled commands. -/
inductive ErrMsg where
  | noIterState
  | dirtyTree
  | lockBusy
  | headMovedWarning (cur : String)
  | notAncestor (firstAbbrev lastAbbrev : String)
  | noCommitsInSequence
  | runNeedsCommand
  | cmdExited (code : Nat) (sha : String)
  | nothingToIterate
  | startNeedsFirst
  | firstNeedsRev
  | nothingToReset
  | resolveFailed (rev : String)
deriving DecidableEq, Repr

/-- Observable result of one invocation: exit code, whether the process
died from an unhandled exception, the state file content afterwards, the
commits checked out (in order), stdout and stderr messages, and the
`(first, last)` arguments of each `build_sequence` call. -/
structure Outcome where
  exitCode : Nat
  crashed : Bool := false
  disk : Option IterState
  checkouts : List String := []
  out : List Msg := []
  err : List ErrMsg := []
  buildCalls : List (Option String × Option String) := []
deriving DecidableEq, Repr

/-- Python truthiness of an optional string: `None` and `""` are falsy. -/
def truthyStr : Option String → Bool
  | none => false
  | some s => s ≠ ""

/-- Python truthiness of an optional list: `None` and `[]` are falsy. -/
def truthySeq : Option (List String) → Bool
  | none => false
  | some l => l ≠ []

/-- Python list subscript `l[i]` with an `int` index: non-negative indices
from the front, negative indices from the back, `none` = `IndexError`. -/
def pythonGet (l : List String) (i : Int) : Option String :=
  if 0 ≤ i then l.get? i.toNat
  else if -(l.length : Int) ≤ i then l.get? ((l.length : Int) + i).toNat
  else none

/-- Result of `build_sequence`: `crash` models the `TypeError` raised by
`subprocess.run` when a `None` boundary is passed as an argument token,
`fail e` models `sys.exit(1)` after printing `e`, `ok seq` a normal return. -/
inductive BuildResult where
  | crash : BuildResult
  | fail : ErrMsg → BuildResult
  | ok : List String → BuildResult
deriving DecidableEq, Repr

/-- Model of `build_sequence(first_sha, last_sha, pathspec)` (git-iter.py lines
219-245).  Ancestry is verified with `git merge-base --is-ancestor`
(general ancestry).  On `first == last` the result is `[first]`; otherwise
the reversed first-parent ancestry-path listing is prepended with `first`.
The final `if not seq` branch of the source is kept although `seq` is
never empty there. -/
def build_sequence (git : GitRepo) (first_sha last_sha : Option String)
    (pathspec : List String) : BuildResult :=
  match first_sha, last_sha with
  | some f, some l =>
    if git.isAncestor f l = false then
      .fail (.notAncestor (f.take 12) (l.take 12))
    else if f = l then
      .ok [f]
    else
      let revs := git.revListRange f l pathspec
      let seq := f :: revs
      if seq = [] then .ok [f] else .ok seq
  | _, _ => .crash

/-- Model of `maybe_warn_last_moved(state)` (lines 252-263): if `last` is truthy,
HEAD differs from it and no warning was recorded for this HEAD yet, set
`_warned_head` and report that a save happened (second component). -/
def maybe_warn_last_moved (git : GitRepo) (st : IterState) : IterState × Bool :=
  match st.last with
  | none => (st, false)
  | some l =>
    if l = "" then (st, false)
    else if git.headSha ≠ l ∧ st.warned_head ≠ some git.headSha then
      ({ st with warned_head := some git.headSha }, true)
    else (st, false)

/-- Model of `ensure_state_exists_or_die()` (lines 334-342): `none` when there is no
state or `first`/`last` is falsy (the script then exits 1). -/
def ensure_state_exists (disk : Option IterState) : Option IterState :=
  match disk with
  | none => none
  | some st => if truthyStr st.first && truthyStr st.last then some st else none

/-- Empty initial state corresponding to the `{}` dictionary of
`load_state() or {}` in `cmd_first`/`cmd_last` (absent keys read as `None`,
`pathspec` later normalized to `[]`, `index` to `-1`). -/
def emptyState : IterState :=
  ⟨none, none, none, none, [], none, -1, none⟩

/-- Model of `cmd_next(args)` (lines 377-403). -/
def cmd_next (git : GitRepo) (disk : Option IterState) : Outcome :=
  match ensure_state_exists disk with
  | none => { exitCode := 1, disk := disk, err := [.noIterState] }
  | some st0 =>
    let w := maybe_warn_last_moved git st0
    let st1 := w.1
    let disk1 := if w.2 then some st1 else disk
    let warnErr : List ErrMsg := if w.2 then [.headMovedWarning git.headSha] else []
    if git.clean = false then
      { exitCode := 1, disk := disk1, err := warnErr ++ [.dirtyTree] }
    else
      let built := !truthySeq st1.sequence
      let bres : BuildResult :=
        if truthySeq st1.sequence then .ok (st1.sequence.getD [])
        else build_sequence git st1.first st1.last st1.pathspec
      let bcalls : List (Option String × Option String) :=
        if built then [(st1.first, st1.last)] else []
      match bres with
      | .crash =>
        { exitCode := 1, crashed := true, disk := disk1, err := warnErr,
          buildCalls := bcalls }
      | .fail e =>
        { exitCode := 1, disk := disk1, err := warnErr ++ [e],
          buildCalls := bcalls }
      | .ok seq =>
        let st2 := { st1 with sequence := some seq }
        let idx := st2.index
        if idx = -1 ∨ idx < (seq.length : Int) - 1 then
          let newIdx : Int := if idx = -1 then 0 else idx + 1
          match pythonGet seq newIdx with
          | none =>
            { exitCode := 1, crashed := true, disk := disk1, err := warnErr,
              buildCalls := bcalls }
          | some target =>
            { exitCode := 0, disk := some { st2 with index := newIdx },
              checkouts := [target],
              out := [.status target newIdx seq.length], err := warnErr,
              buildCalls := bcalls }
        else
          { exitCode := 0, disk := disk1, out := [.alreadyLast],
            err := warnErr, buildCalls := bcalls }

/-- The no-prior-state branch of `cmd_prev` (lines 416-456): infer the
sequence from the repository root to HEAD along first parents. -/
def cmd_prev_noState (git : GitRepo) : Outcome :=
  let seq := git.revListRootToHead
  match seq with
  | [] => { exitCode := 0, disk := none, err := [.nothingToIterate] }
  | f :: _ =>
    let last := git.headSha
    let idx0 : Nat := if last ∈ seq then seq.indexOf last else seq.length - 1
    if idx0 > 0 then
      let idx := idx0 - 1
      match seq.get? idx with
      | none => { exitCode := 1, crashed := true, disk := none }
      | some target =>
        let st : IterState :=
          ⟨git.symbolicHead, some git.headSha, some f, some last, [],
            some seq, (idx : Int), none⟩
        { exitCode := 0, disk := some st, checkouts := [target],
          out := [.status target (idx : Int) seq.length] }
    else
      let st : IterState :=
        ⟨git.symbolicHead, some git.headSha, some f, some last, [],
          some seq, 0, none⟩
      { exitCode := 0, disk := some st, out := [.alreadyFirst] }

/-- Model of `cmd_prev(args)` (lines 406-480). -/
def cmd_prev (git : GitRepo) (disk : Option IterState) : Outcome :=
  if git.clean = false then
    { exitCode := 1, disk := disk, err := [.dirtyTree] }
  else
    match disk with
    | none => cmd_prev_noState git
    | some st0 =>
      let w := maybe_warn_last_moved git st0
      let st1 := w.1
      let disk1 := if w.2 then some st1 else disk
      let warnErr : List ErrMsg := if w.2 then [.headMovedWarning git.headSha] else []
      let built := !truthySeq st1.sequence
      let bres : BuildResult :=
        if truthySeq st1.sequence then .ok (st1.sequence.getD [])
        else build_sequence git st1.first st1.last st1.pathspec
      let bcalls : List (Option String × Option String) :=
        if built then [(st1.first, st1.last)] else []
      match bres with
      | .crash =>
        { exitCode := 1, crashed := true, disk := disk1, err := warnErr,
          buildCalls := bcalls }
      | .fail e =>
        { exitCode := 1, disk := disk1, err := warnErr ++ [e],
          buildCalls := bcalls }
      | .ok seq =>
        let st2 := { st1 with sequence := some seq }
        let idx1 := st2.index
        let idx2 : Int :=
          if idx1 = -1 then
            if git.headSha ∈ seq then (seq.indexOf git.headSha : Int) else 0
          else idx1
        if idx2 > 0 then
          let idx3 := idx2 - 1
          match pythonGet seq idx3 with
          | none =>
            { exitCode := 1, crashed := true, disk := disk1, err := warnErr,
              buildCalls := bcalls }
          | some target =>
            { exitCode := 0, disk := some { st2 with index := idx3 },
              checkouts := [target],
              out := [.status target idx3 seq.length], err := warnErr,
              buildCalls := bcalls }
        else
          { exitCode := 0, disk := some { st2 with index := 0 },
            out := [.alreadyFirst], err := warnErr, buildCalls := bcalls }

/-- The per-step loop of `cmd_run` (lines 540-556): for each index,
check out `seq[idx]`, persist `index = idx`, then run the user command
(`child sha` gives its exit code at that commit; `cmdEmpty` models the
exception `subprocess.run([])` raises when the command token list is
empty after stripping a leading `--`). -/
def run_loop (git : GitRepo) (child : String → Nat) (cmdEmpty : Bool)
    (seq : List String) (st : IterState) (disk : Option IterState) :
    List Nat → Outcome
  | [] => { exitCode := 0, disk := disk, out := [.completedRun seq.length] }
  | i :: rest =>
    match seq.get? i with
    | none => { exitCode := 1, crashed := true, disk := disk }
    | some sha =>
      if cmdEmpty then
        { exitCode := 1, crashed := true,
          disk := some { st with index := (i : Int) }, checkouts := [sha] }
      else if child sha ≠ 0 then
        { exitCode := child sha,
          disk := some { st with index := (i : Int) }, checkouts := [sha],
          err := [.cmdExited (child sha) sha] }
      else
        { run_loop git child cmdEmpty seq { st with index := (i : Int) }
            (some { st with index := (i : Int) }) rest with
          checkouts := sha :: (run_loop git child cmdEmpty seq
              { st with index := (i : Int) }
              (some { st with index := (i : Int) }) rest).checkouts }

/-- Model of `cmd_run(args)` (lines 506-556).  `child` is the user command's exit
code as a function of the checked-out commit; `cmdTokens` is `args.cmd`. -/
def cmd_run (git : GitRepo) (child : String → Nat) (reverse : Bool)
    (cmdTokens : List String) (disk : Option IterState) : Outcome :=
  match disk with
  | none => { exitCode := 1, disk := disk, err := [.noIterState] }
  | some st0 =>
    if truthyStr st0.first = false then
      { exitCode := 1, disk := disk, err := [.noIterState] }
    else if git.clean = false then
      { exitCode := 1, disk := disk, err := [.dirtyTree] }
    else
      let w := maybe_warn_last_moved git st0
      let st1 := w.1
      let disk1 := if w.2 then some st1 else disk
      let warnErr : List ErrMsg := if w.2 then [.headMovedWarning git.headSha] else []
      let built := !truthySeq st1.sequence
      let bres : BuildResult :=
        if truthySeq st1.sequence then .ok (st1.sequence.getD [])
        else build_sequence git st1.first st1.last st1.pathspec
      let bcalls : List (Option String × Option String) :=
        if built then [(st1.first, st1.last)] else []
      match bres with
      | .crash =>
        { exitCode := 1, crashed := true, disk := disk1, err := warnErr,
          buildCalls := bcalls }
      | .fail e =>
        { exitCode := 1, disk := disk1, err := warnErr ++ [e],
          buildCalls := bcalls }
      | .ok seq =>
        let st2 := { st1 with sequence := some seq }
        let disk2 := if built then some st2 else disk1
        if seq = [] then
          { exitCode := 1, disk := disk2, err := warnErr ++ [.noCommitsInSequence],
            buildCalls := bcalls }
        else if cmdTokens = [] then
          { exitCode := 1, disk := disk2, err := warnErr ++ [.runNeedsCommand],
            buildCalls := bcalls }
        else
          let cmd := if cmdTokens.head? = some "--" then cmdTokens.tail else cmdTokens
          let order := if reverse then (List.range seq.length).reverse
                       else List.range seq.length
          let o := run_loop git child (cmd = []) seq st2 disk2 order
          { o with err := warnErr ++ o.err, buildCalls := bcalls }

/-- Model of `cmd_start(args)` (lines 291-331).  `revs` is the raw `args.revs`
remainder list, split at `--` into revisions and pathspec. -/
def cmd_start (git : GitRepo) (revs : List String) (disk : Option IterState) :
    Outcome :=
  let revs_part := if "--" ∈ revs then revs.take (revs.indexOf "--") else revs
  let pathspec := if "--" ∈ revs then revs.drop (revs.indexOf "--" + 1) else []
  match revs_part with
  | [] => { exitCode := 1, disk := disk, err := [.startNeedsFirst] }
  | first :: restR =>
    let last := match restR with | [] => "HEAD" | l :: _ => l
    if git.clean = false then
      { exitCode := 1, disk := disk, err := [.dirtyTree] }
    else
      match git.resolve first with
      | none => { exitCode := 1, disk := disk, err := [.resolveFailed first] }
      | some f =>
        match git.resolve last with
        | none => { exitCode := 1, disk := disk, err := [.resolveFailed last] }
        | some l =>
          match build_sequence git (some f) (some l) pathspec with
          | .crash =>
            { exitCode := 1, crashed := true, disk := disk,
              buildCalls := [(some f, some l)] }
          | .fail e =>
            { exitCode := 1, disk := disk, err := [e],
              buildCalls := [(some f, some l)] }
          | .ok seq =>
            let st : IterState :=
              ⟨git.symbolicHead, some git.headSha, some f, some l, pathspec,
                some seq, -1, none⟩
            { exitCode := 0, disk := some st,
              out := [.sequencePrepared seq.length],
              buildCalls := [(some f, some l)] }

/-- Model of `cmd_first(args)` (lines 345-360).  Note: no worktree-cleanliness
check appears in the source of this handler. -/
def cmd_first (git : GitRepo) (rev : String) (disk : Option IterState) :
    Outcome :=
  if rev = "" then { exitCode := 1, disk := disk, err := [.firstNeedsRev] }
  else
    match git.resolve rev with
    | none => { exitCode := 1, disk := disk, err := [.resolveFailed rev] }
    | some sha =>
      let st0 := disk.getD emptyState
      let st1 :=
        if truthyStr st0.original_head then st0
        else { st0 with original_ref := git.symbolicHead,
                        original_head := some git.headSha }
      let st2 :=
        { st1 with first := some sha,
                   last := if truthyStr st1.last then st1.last
                           else some git.headSha,
                   sequence := none, index := -1 }
      { exitCode := 0, disk := some st2, out := [.firstSet sha] }

/-- Model of `cmd_last(args)` (lines 363-374).  Note: no worktree-cleanliness
check appears in the source of this handler. -/
def cmd_last (git : GitRepo) (rev : Option String) (disk : Option IterState) :
    Outcome :=
  let r := match rev with
    | none => "HEAD"
    | some s => if s = "" then "HEAD" else s
  match git.resolve r with
  | none => { exitCode := 1, disk := disk, err := [.resolveFailed r] }
  | some sha =>
    let st0 := disk.getD emptyState
    let st1 :=
      if truthyStr st0.original_head then st0
      else { st0 with original_ref := git.symbolicHead,
                      original_head := some git.headSha }
    let st2 :=
      { st1 with last := some sha, sequence := none, index := -1 }
    { exitCode := 0, disk := some st2, out := [.lastSet sha] }

/-- Model of `cmd_reset(args)` (lines 483-503). -/
def cmd_reset (git : GitRepo) (rev : Option String) (disk : Option IterState) :
    Outcome :=
  let revArg : Option String := match rev with
    | none => none
    | some r => if r = "" then none else some r
  match revArg with
  | some r =>
    match git.resolve r with
    | none => { exitCode := 1, disk := disk, err := [.resolveFailed r] }
    | some t =>
      if t = "" then { exitCode := 0, disk := disk, err := [.nothingToReset] }
      else
        { exitCode := 0, disk := none, checkouts := [t], out := [.resetTo t] }
  | none =>
    match disk with
    | some st =>
      if truthyStr st.original_ref then
        { exitCode := 0, disk := none, checkouts := [st.original_ref.getD ""],
          out := [.resetTo (st.original_ref.getD "")] }
      else
        match st.original_head with
        | some oh =>
          if oh = "" then { exitCode := 0, disk := disk, err := [.nothingToReset] }
          else
            { exitCode := 0, disk := none, checkouts := [oh],
              out := [.resetTo oh] }
        | none => { exitCode := 0, disk := disk, err := [.nothingToReset] }
    | none => { exitCode := 0, disk := disk, err := [.nothingToReset] }

/-- Model of `main`'s lock acquisition (lines 131-149, 683): when the lock file
already exists the invocation reports it and exits 1 before dispatching,
leaving the state file untouched. -/
def invoke (lockBusy : Bool) (dispatch : Option IterState → Outcome)
    (disk : Option IterState) : Outcome :=
  if lockBusy then { exitCode := 1, disk := disk, err := [.lockBusy] }
  else dispatch disk

/-- Concrete two-commit repository oracle used in witnesses: linear
history `a → b`, HEAD at `b` on branch `main`, clean tree. -/
def gitLin : GitRepo :=
  { resolve := fun r => some r
    isAncestor := fun _ _ => true
    revListRange := fun _ l _ => [l]
    revListRootToHead := ["a", "b"]
    headSha := "b"
    symbolicHead := some "main"
    clean := true }

/-- Ancestor set of a commit in a commit graph given by its parents
function, computed with explicit fuel: the reflexive closure over all
parents, i.e. the relation `git merge-base --is-ancestor` decides. -/
def ancestorsFuel (parents : String → List String) : Nat → String → List String
  | 0, c => [c]
  | fuel + 1, c => c :: (parents c).flatMap (ancestorsFuel parents fuel)

/-- First-parent chain from a commit: the commit itself, then repeatedly
its first parent, with fuel. -/
def fpChain (parents : String → List String) : Nat → String → List String
  | 0, c => [c]
  | fuel + 1, c =>
    c :: (match parents c with
      | [] => []
      | p :: _ => fpChain parents fuel p)

/-- Commit graph with a merge: `m` has first parent `b` and second parent
`c`; both `b` and `c` are children of the root `r`.  Commit `c` is
reachable from `m` only through the second parent. -/
def exParents : String → List String
  | "m" => ["b", "c"]
  | "b" => ["r"]
  | "c" => ["r"]
  | _ => []

/-- Git oracle over `exParents`: `merge-base --is-ancestor` decides
general ancestry; `rev-list --reverse --first-parent --ancestry-path c..m`
lists `[m]` (of the first-parent walk `m, b, r` only `m` is a descendant
of `c` inside the range). -/
def gitEx : GitRepo :=
  { resolve := fun r => some r
    isAncestor := fun a b => decide (a ∈ ancestorsFuel exParents 4 b)
    revListRange := fun _ l _ => [l]
    revListRootToHead := []
    headSha := "m"
    symbolicHead := none
    clean := true }

/-- Dirty-tree oracle: same repository answers as `gitLin` but with
uncommitted changes in the working tree. -/
def gitDirty : GitRepo :=
  { resolve := fun r => some r
    isAncestor := fun _ _ => true
    revListRange := fun _ l _ => [l]
    revListRootToHead := ["a", "b"]
    headSha := "b"
    symbolicHead := some "main"
    clean := false }

/-- Dirty-tree oracle whose HEAD (`h2`) has drifted away from the saved
`last` boundary `b`. -/
def gitDriftDirty : GitRepo :=
  { resolve := fun r => some r
    isAncestor := fun _ _ => true
    revListRange := fun _ l _ => [l]
    revListRootToHead := ["a", "b"]
    headSha := "h2"
    symbolicHead := none
    clean := false }

/-- A saved state whose `last` is `b` and that has not yet warned about
any drifted HEAD. -/
def stDrift : IterState :=
  ⟨some "main", some "b", some "a", some "b", [], some ["a", "b"], -1, none⟩

/-- Model of `b` agrees with `a` on every field except possibly the `warned_head`
bookkeeping. -/
def sameExceptWarn (a b : IterState) : Prop :=
  b = { a with warned_head := b.warned_head }

/-- Model of `b` agrees with `a` on every field except possibly `warned_head` and
the memoized `sequence`. -/
def sameExceptWarnSeq (a b : IterState) : Prop :=
  b = { a with warned_head := b.warned_head, sequence := b.sequence }

/-- Iterated invocations of `next`, threading the on-disk state (the
oracle list supplies one per-invocation view of the repository). -/
def next_iter (gs : List GitRepo) (disk : Option IterState) : Option IterState :=
  match gs with
  | [] => disk
  | g :: rest => next_iter rest (cmd_next g disk).disk

/-- Iterated invocations of `prev`, threading the on-disk state. -/
def prev_iter (gs : List GitRepo) (disk : Option IterState) : Option IterState :=
  match gs with
  | [] => disk
  | g :: rest => prev_iter rest (cmd_prev g disk).disk

/-- Strengthened state invariant: a state without a memoized sequence is
at the fresh sentinel `-1`; a memoized sequence is non-empty and brackets
the index within `[-1, len - 1]`. -/
def StrongInv : Option IterState → Prop
  | none => True
  | some st =>
    (st.sequence = none → st.index = -1) ∧
    ∀ seq, st.sequence = some seq →
      seq ≠ [] ∧ -1 ≤ st.index ∧ st.index ≤ (seq.length : Int) - 1

/-- Disk states the program can produce: starting from no state file,
closed under the disk effect of every command, with arbitrary git
collaborator answers, arguments and child commands.  `help` and a
lock-busy invocation leave the disk unchanged, so they need no case. -/
inductive Reachable : Option IterState → Prop where
  | initial : Reachable none
  | viaStart (git : GitRepo) (revs : List String) {d : Option IterState}
      (h : Reachable d) : Reachable (cmd_start git revs d).disk
  | viaFirst (git : GitRepo) (rev : String) {d : Option IterState}
      (h : Reachable d) : Reachable (cmd_first git rev d).disk
  | viaLast (git : GitRepo) (rev : Option String) {d : Option IterState}
      (h : Reachable d) : Reachable (cmd_last git rev d).disk
  | viaNext (git : GitRepo) {d : Option IterState} (h : Reachable d) :
      Reachable (cmd_next git d).disk
  | viaPrev (git : GitRepo) {d : Option IterState} (h : Reachable d) :
      Reachable (cmd_prev git d).disk
  | viaRun (git : GitRepo) (child : String → Nat) (reverse : Bool)
      (cmdTokens : List String) {d : Option IterState} (h : Reachable d) :
      Reachable (cmd_run git child reverse cmdTokens d).disk
  | viaReset (git : GitRepo) (rev : Option String) {d : Option IterState}
      (h : Reachable d) : Reachable (cmd_reset git rev d).disk

/-! ### Theorems -/

/-- Lemma: `maybe_warn_last_moved` either leaves the state alone or only records
the drift warning in `warned_head`. -/
theorem maybe_warn_shape (git : GitRepo) (st : IterState) :
    (maybe_warn_last_moved git st).1 = st ∨
    (maybe_warn_last_moved git st).1 =
      { st with warned_head := some git.headSha } := by
  unfold maybe_warn_last_moved
  rcases h : st.last with _ | l
  · exact Or.inl rfl
  · by_cases h0 : l = ""
    · simp [h0]
    · by_cases h1 : git.headSha ≠ l ∧ st.warned_head ≠ some git.headSha
      · simp [h0, h1]
      · simp [h0, h1]

/-- Lemma: `ensure_state_exists_or_die` returns the very state that was loaded,
and only when `first` and `last` are truthy. -/
theorem ensure_state_eq (d : Option IterState) (st : IterState)
    (h : ensure_state_exists d = some st) :
    d = some st ∧ truthyStr st.first = true ∧ truthyStr st.last = true := by
  cases d with
  | none => simp [ensure_state_exists] at h
  | some s =>
    by_cases ht : truthyStr s.first && truthyStr s.last
    · rw [ensure_state_exists, if_pos ht] at h
      cases h
      exact ⟨rfl, by simpa using ht⟩
    · rw [ensure_state_exists, if_neg ht] at h
      cases h

/-- A successful `build_sequence` never returns an empty list. -/
theorem build_ok_ne_nil (git : GitRepo) (f l : Option String)
    (ps seq : List String) (h : build_sequence git f l ps = .ok seq) :
    seq ≠ [] := by
  rcases f with _ | f <;> rcases l with _ | l <;>
    simp only [build_sequence] at h
  · exact absurd h (by simp)
  · exact absurd h (by simp)
  · exact absurd h (by simp)
  · split at h
    · exact absurd h (by simp)
    · split at h
      · cases h
        simp
      · split at h
        · cases h
          simp
        · cases h
          simp

/-- C4 counterexample: commit `c` is a general ancestor of the merge `m`
but is not on `m`'s first-parent chain, so per the claim building the
sequence from `c` to `m` must be a hard validation error — yet
`build_sequence` succeeds (it checks `git merge-base --is-ancestor`,
i.e. general ancestry, not the first-parent chain). -/
theorem C4_counterexample :
    ("c" ∈ ancestorsFuel exParents 4 "m" ∧ "c" ∉ fpChain exParents 4 "m") ∧
    build_sequence gitEx (some "c") (some "m") [] = .ok ["c", "m"] := by
  decide

/-- C4 amended: the sequence builder's validation fails (exit 1, naming
both endpoints abbreviated to 12 characters) exactly when `first` is not
an ancestor of `last` under general (`merge-base`) ancestry; a
first-parent-only path is not required, although the error text says it
is.  When the general-ancestry test passes the builder returns a
sequence. -/
theorem C4_validation_general_ancestry (git : GitRepo) (f l : String)
    (ps : List String) :
    (build_sequence git (some f) (some l) ps =
        .fail (.notAncestor (f.take 12) (l.take 12)) ↔
      git.isAncestor f l = false) ∧
    (git.isAncestor f l = true →
      ∃ seq, build_sequence git (some f) (some l) ps = .ok seq) := by
  constructor
  · constructor
    · intro h
      by_contra hA
      rw [build_sequence] at h
      rw [if_neg hA] at h
      by_cases he : f = l
      · rw [if_pos he] at h
        exact absurd h (by simp)
      · rw [if_neg he] at h
        exact absurd h (by simp)
    · intro hA
      rw [build_sequence, if_pos hA]
  · intro hA
    rw [build_sequence, if_neg (by simp [hA])]
    by_cases he : f = l
    · exact ⟨[f], by rw [if_pos he]⟩
    · rw [if_neg he]
      refine ⟨f :: git.revListRange f l ps, ?_⟩
      rw [if_neg (by simp)]

/-- Witness for `C4_validation_general_ancestry`: in the concrete merge
graph the general-ancestry test passes for `(c, m)` and the builder
returns a sequence. -/
theorem C4_validation_general_ancestry_witness :
    ∃ seq, build_sequence gitEx (some "c") (some "m") [] = .ok seq :=
  (C4_validation_general_ancestry gitEx "c" "m" []).2 (by decide)

/-- C5 counterexample: with uncommitted changes in the working tree
(`clean = false`), `first` does not report an error — it exits 0 and
persists a new state; the handler contains no cleanliness check. -/
theorem C5_counterexample :
    (cmd_first gitDirty "x" none).exitCode = 0 ∧
    (cmd_first gitDirty "x" none).disk ≠ none := by
  decide

/-- C5 amended: `start`, `next`, `prev` and `run` reject a dirty working
tree — with `clean = false` every such invocation exits 1 — while `first`
and `last` perform no cleanliness check and proceed: on a resolvable
revision they exit 0 and persist state even with a dirty tree. -/
theorem C5_clean_tree_requirements (git : GitRepo) (hd : git.clean = false)
    (revs cmdTokens : List String) (child : String → Nat) (reverse : Bool)
    (disk : Option IterState) (rev : String) (sha : String)
    (hrev : rev ≠ "") (hres : git.resolve rev = some sha) :
    (cmd_start git revs disk).exitCode = 1 ∧
    (cmd_next git disk).exitCode = 1 ∧
    (cmd_prev git disk).exitCode = 1 ∧
    (cmd_run git child reverse cmdTokens disk).exitCode = 1 ∧
    ((cmd_first git rev disk).exitCode = 0 ∧ (cmd_first git rev disk).disk ≠ none) ∧
    ((cmd_last git (some rev) disk).exitCode = 0 ∧ (cmd_last git (some rev) disk).disk ≠ none) := by
  refine ⟨?_, ?_, ?_, ?_, ?_, ?_⟩
  · rw [cmd_start]
    split
    · rfl
    · rw [if_pos hd]
  · rw [cmd_next]
    cases hE : ensure_state_exists disk with
    | none => rfl
    | some st0 => simp only [hd, if_pos]
  · unfold cmd_prev
    rw [if_pos hd]
  · unfold cmd_run
    cases disk with
    | none => rfl
    | some st0 =>
      cases hf : truthyStr st0.first with
      | false => simp [hf]
      | true => simp [hf, hd]
  · rw [cmd_first, if_neg hrev, hres]
    exact ⟨rfl, by simp⟩
  · unfold cmd_last
    simp [hrev, hres]

/-- Witness for `C5_clean_tree_requirements` at the concrete dirty-tree
oracle. -/
theorem C5_clean_tree_requirements_witness :
    (cmd_start gitDirty ["a"] none).exitCode = 1 ∧
    (cmd_next gitDirty none).exitCode = 1 ∧
    (cmd_prev gitDirty none).exitCode = 1 ∧
    (cmd_run gitDirty (fun _ => 0) false ["true"] none).exitCode = 1 ∧
    ((cmd_first gitDirty "x" none).exitCode = 0 ∧ (cmd_first gitDirty "x" none).disk ≠ none) ∧
    ((cmd_last gitDirty (some "x") none).exitCode = 0 ∧ (cmd_last gitDirty (some "x") none).disk ≠ none) :=
  C5_clean_tree_requirements gitDirty rfl ["a"] ["true"] (fun _ => 0) false
    none "x" "x" (by decide) rfl

/-- C6: when the ancestry validation passes, `first == last` yields
exactly the one-element sequence `[first]` (with any pathspec); otherwise,
with an empty path filter and git's documented `rev-list` behavior for a
valid range (the reversed listing of `first..last` ends with `last`), the
built sequence's first element is `first` and its last element is
`last`. -/
theorem C6_sequence_endpoints (git : GitRepo) (f l : String)
    (ps : List String) :
    (git.isAncestor f f = true →
      build_sequence git (some f) (some f) ps = .ok [f]) ∧
    (git.isAncestor f l = true → f ≠ l →
      (git.revListRange f l []).getLast? = some l →
      ∃ seq, build_sequence git (some f) (some l) [] = .ok seq ∧
        seq.head? = some f ∧ seq.getLast? = some l) := by
  constructor
  · intro hA
    rw [build_sequence, if_neg (by simp [hA]), if_pos rfl]
  · intro hA hne hLast
    refine ⟨f :: git.revListRange f l [], ?_, rfl, ?_⟩
    · rw [build_sequence, if_neg (by simp [hA]), if_neg hne,
        if_neg (by simp)]
    · rcases hr : git.revListRange f l [] with _ | ⟨r, rs⟩
      · rw [hr] at hLast
        exact absurd hLast (by simp)
      · rw [hr] at hLast
        rw [List.getLast?_cons_cons]
        exact hLast

/-- Witness for `C6_sequence_endpoints` on the concrete linear
repository. -/
theorem C6_sequence_endpoints_witness :
    build_sequence gitLin (some "a") (some "a") [] = .ok ["a"] ∧
    ∃ seq, build_sequence gitLin (some "a") (some "b") [] = .ok seq ∧
      seq.head? = some "a" ∧ seq.getLast? = some "b" :=
  ⟨(C6_sequence_endpoints gitLin "a" "a" []).1 (by decide),
   (C6_sequence_endpoints gitLin "a" "b" []).2 (by decide) (by decide) (by decide)⟩

/-- C10: `run`'s missing-state guard tests only `first`.  A state with
`first` set but `last` null (exactly what `load_state` yields for a state
file lacking that key) and no memoized sequence passes the guard — no
error branch of `cmd_run` fires (stderr stays empty) — and sequence
construction is invoked with a null `last` boundary, on which the
invocation dies with an unhandled exception. -/
theorem C10_run_null_last (git : GitRepo) (child : String → Nat)
    (reverse : Bool) (cmdTokens : List String) (st : IterState)
    (hf : truthyStr st.first = true) (hl : st.last = none)
    (hseq : st.sequence = none) (hclean : git.clean = true) :
    (cmd_run git child reverse cmdTokens (some st)).err = [] ∧
    (cmd_run git child reverse cmdTokens (some st)).buildCalls =
      [(st.first, none)] ∧
    (cmd_run git child reverse cmdTokens (some st)).crashed = true ∧
    (cmd_run git child reverse cmdTokens (some st)).exitCode = 1 := by
  have hwarn : maybe_warn_last_moved git st = (st, false) := by
    rw [maybe_warn_last_moved, hl]
  have hbuild : build_sequence git st.first none st.pathspec = .crash := by
    rw [build_sequence.eq_def]
    rcases st.first with _ | f <;> rfl
  unfold cmd_run
  simp [hf, hclean, hwarn, hseq, truthySeq, hl, hbuild]

/-- Witness for `C10_run_null_last`: a concrete state whose file recorded
only `first`. -/
theorem C10_run_null_last_witness :
    (cmd_run gitLin (fun _ => 0) false ["true"]
        (some ⟨none, none, some "a", none, [], none, -1, none⟩)).err = [] ∧
    (cmd_run gitLin (fun _ => 0) false ["true"]
        (some ⟨none, none, some "a", none, [], none, -1, none⟩)).buildCalls =
      [(some "a", none)] ∧
    (cmd_run gitLin (fun _ => 0) false ["true"]
        (some ⟨none, none, some "a", none, [], none, -1, none⟩)).crashed = true ∧
    (cmd_run gitLin (fun _ => 0) false ["true"]
        (some ⟨none, none, some "a", none, [], none, -1, none⟩)).exitCode = 1 :=
  C10_run_null_last gitLin (fun _ => 0) false ["true"]
    ⟨none, none, some "a", none, [], none, -1, none⟩ (by decide) rfl rfl rfl

/-- C3 counterexample: a `next` invocation rejected for a dirty working
tree (exit 1) nevertheless mutates the persisted state —
`maybe_warn_last_moved` runs before the cleanliness check and persists an
updated `warned_head`. -/
theorem C3_counterexample :
    (cmd_next gitDriftDirty (some stDrift)).exitCode = 1 ∧
    (cmd_next gitDriftDirty (some stDrift)).err =
      [.headMovedWarning "h2", .dirtyTree] ∧
    (cmd_next gitDriftDirty (some stDrift)).disk ≠ some stDrift ∧
    (cmd_next gitDriftDirty (some stDrift)).disk =
      some { stDrift with warned_head := some "h2" } := by
  decide

theorem cmd_next_dirty (git : GitRepo) (st : IterState)
    (hgd : git.clean = false) (hf : truthyStr st.first = true)
    (hl : truthyStr st.last = true) :
    (cmd_next git (some st)).exitCode = 1 ∧
    ∃ st2, (cmd_next git (some st)).disk = some st2 ∧ sameExceptWarn st st2 := by
  have hE : ensure_state_exists (some st) = some st := by
    rw [ensure_state_exists, if_pos (by simp [hf, hl])]
  rw [cmd_next, hE]
  constructor
  · cases hw2 : (maybe_warn_last_moved git st).2 <;> simp [hw2, hgd]
  · cases hw2 : (maybe_warn_last_moved git st).2 with
    | false =>
      refine ⟨st, ?_, rfl⟩
      simp [hw2, hgd]
    | true =>
      rcases maybe_warn_shape git st with hw | hw
      · refine ⟨st, ?_, rfl⟩
        simp [hw2, hgd, hw]
      · refine ⟨{ st with warned_head := some git.headSha }, ?_, rfl⟩
        simp [hw2, hgd, hw]

theorem cmd_run_noCmd (git : GitRepo) (st : IterState) (child : String → Nat)
    (reverse : Bool) (hgc : git.clean = true) (hfR : truthyStr st.first = true) :
    (cmd_run git child reverse [] (some st)).exitCode = 1 ∧
    ∃ st2, (cmd_run git child reverse [] (some st)).disk = some st2 ∧
      sameExceptWarnSeq st st2 := by
  unfold cmd_run
  obtain ⟨st1, b, hmw⟩ : ∃ st1 b, maybe_warn_last_moved git st = (st1, b) :=
    ⟨_, _, rfl⟩
  have hsh : st1 = st ∨ st1 = { st with warned_head := some git.headSha } := by
    have h := maybe_warn_shape git st
    rw [hmw] at h
    exact h
  have hdisk1 : ∀ x : Option IterState,
      x = (if b = true then some st1 else some st) →
      ∃ st2, x = some st2 ∧ sameExceptWarnSeq st st2 := by
    intro x hx
    cases b
    · exact ⟨st, by simpa using hx, rfl⟩
    · refine ⟨st1, by simpa using hx, ?_⟩
      rcases hsh with h | h <;> rw [h] <;> rfl
  have hdisk2 : ∀ seq : List String,
      ∃ st2, (some { st1 with sequence := some seq } : Option IterState) = some st2 ∧
        sameExceptWarnSeq st st2 := by
    intro seq
    refine ⟨{ st1 with sequence := some seq }, rfl, ?_⟩
    rcases hsh with h | h <;> rw [h] <;> rfl
  simp only [hfR, hgc, hmw]
  cases hts : truthySeq st1.sequence with
  | true =>
    obtain ⟨s, hs⟩ : ∃ s, st1.sequence = some s := by
      cases hq : st1.sequence with
      | none => rw [hq] at hts; exact absurd hts (by simp [truthySeq])
      | some s => exact ⟨s, rfl⟩
    have hsne : s ≠ [] := by
      rw [hs] at hts
      simpa [truthySeq] using hts
    simp only [hts, hs, Option.getD_some, Bool.not_true, Bool.false_eq_true,
      if_false, if_true, ite_true, ite_false, hsne]
    exact ⟨rfl, hdisk1 _ (by simp)⟩
  | false =>
    simp only [hts, Bool.not_false, Bool.false_eq_true, if_false, if_true,
      ite_true, ite_false]
    rcases hb : build_sequence git st1.first st1.last st1.pathspec with _ | e | seq <;>
      simp only [hb]
    · exact ⟨rfl, hdisk1 _ (by simp)⟩
    · exact ⟨rfl, hdisk1 _ (by simp)⟩
    · by_cases h0 : seq = [] <;> simp only [h0, if_true, if_false, ite_true, ite_false]
      · exact ⟨rfl, hdisk2 _⟩
      · exact ⟨rfl, hdisk2 _⟩

/-- C3 amended: invocations failing a user/precondition check (lock busy,
missing required state, dirty working tree, missing arguments) exit 1 and
leave the persisted state unchanged — except that `next` rejected for a
dirty working tree may first persist updated `warned_head` bookkeeping
(boundary-drift detection runs before its cleanliness check), and `run`
rejected for a missing command may additionally persist the memoized
`sequence` (the lazy build-and-save runs before its argument check);
neither ever changes `first`, `last`, `pathspec` or `index`. -/
theorem C3_precondition_errors (gAny gd gc : GitRepo)
    (hgd : gd.clean = false) (hgc : gc.clean = true)
    (dAny dNo : Option IterState) (hNo : ensure_state_exists dNo = none)
    (st : IterState) (hf : truthyStr st.first = true)
    (hl : truthyStr st.last = true)
    (stNF : IterState) (hNF : truthyStr stNF.first = false)
    (stR : IterState) (hfR : truthyStr stR.first = true)
    (dispatch : Option IterState → Outcome) (child : String → Nat)
    (reverse : Bool) (revs cmdTokens : List String) :
    ((invoke true dispatch dAny).exitCode = 1 ∧
      (invoke true dispatch dAny).disk = dAny) ∧
    ((cmd_next gAny dNo).exitCode = 1 ∧ (cmd_next gAny dNo).disk = dNo) ∧
    ((cmd_next gd (some st)).exitCode = 1 ∧
      ∃ st2, (cmd_next gd (some st)).disk = some st2 ∧ sameExceptWarn st st2) ∧
    ((cmd_prev gd dAny).exitCode = 1 ∧ (cmd_prev gd dAny).disk = dAny) ∧
    ((cmd_run gAny child reverse cmdTokens none).exitCode = 1 ∧
      (cmd_run gAny child reverse cmdTokens none).disk = none) ∧
    ((cmd_run gAny child reverse cmdTokens (some stNF)).exitCode = 1 ∧
      (cmd_run gAny child reverse cmdTokens (some stNF)).disk = some stNF) ∧
    ((cmd_run gd child reverse cmdTokens (some stR)).exitCode = 1 ∧
      (cmd_run gd child reverse cmdTokens (some stR)).disk = some stR) ∧
    ((cmd_run gc child reverse [] (some stR)).exitCode = 1 ∧
      ∃ st2, (cmd_run gc child reverse [] (some stR)).disk = some st2 ∧
        sameExceptWarnSeq stR st2) ∧
    ((cmd_start gAny [] dAny).exitCode = 1 ∧
      (cmd_start gAny [] dAny).disk = dAny) ∧
    ((cmd_start gd revs dAny).exitCode = 1 ∧
      (cmd_start gd revs dAny).disk = dAny) ∧
    ((cmd_first gAny "" dAny).exitCode = 1 ∧
      (cmd_first gAny "" dAny).disk = dAny) := by
  refine ⟨⟨rfl, rfl⟩, ?_, cmd_next_dirty gd st hgd hf hl, ?_, ?_, ?_, ?_,
    cmd_run_noCmd gc stR child reverse hgc hfR, ?_, ?_, ⟨rfl, rfl⟩⟩
  · rw [cmd_next, hNo]
    exact ⟨rfl, rfl⟩
  · unfold cmd_prev
    rw [if_pos hgd]
    exact ⟨rfl, rfl⟩
  · unfold cmd_run
    exact ⟨rfl, rfl⟩
  · unfold cmd_run
    simp [hNF]
  · unfold cmd_run
    simp [hfR, hgd]
  · rw [cmd_start]
    exact ⟨rfl, rfl⟩
  · rw [cmd_start]
    split
    · exact ⟨rfl, rfl⟩
    · rw [if_pos hgd]
      exact ⟨rfl, rfl⟩

/-- Witness for `C3_precondition_errors` at concrete oracles and
states. -/
theorem C3_precondition_errors_witness :
    ((invoke true (cmd_next gitLin) (some stDrift)).exitCode = 1 ∧
      (invoke true (cmd_next gitLin) (some stDrift)).disk = some stDrift) ∧
    ((cmd_next gitLin none).exitCode = 1 ∧ (cmd_next gitLin none).disk = none) ∧
    ((cmd_next gitDriftDirty (some stDrift)).exitCode = 1 ∧
      ∃ st2, (cmd_next gitDriftDirty (some stDrift)).disk = some st2 ∧
        sameExceptWarn stDrift st2) ∧
    ((cmd_prev gitDriftDirty (some stDrift)).exitCode = 1 ∧
      (cmd_prev gitDriftDirty (some stDrift)).disk = some stDrift) ∧
    ((cmd_run gitLin (fun _ => 0) false ["true"] none).exitCode = 1 ∧
      (cmd_run gitLin (fun _ => 0) false ["true"] none).disk = none) ∧
    ((cmd_run gitLin (fun _ => 0) false ["true"] (some emptyState)).exitCode = 1 ∧
      (cmd_run gitLin (fun _ => 0) false ["true"] (some emptyState)).disk =
        some emptyState) ∧
    ((cmd_run gitDriftDirty (fun _ => 0) false ["true"] (some stDrift)).exitCode = 1 ∧
      (cmd_run gitDriftDirty (fun _ => 0) false ["true"] (some stDrift)).disk =
        some stDrift) ∧
    ((cmd_run gitLin (fun _ => 0) false [] (some stDrift)).exitCode = 1 ∧
      ∃ st2, (cmd_run gitLin (fun _ => 0) false [] (some stDrift)).disk = some st2 ∧
        sameExceptWarnSeq stDrift st2) ∧
    ((cmd_start gitLin [] (some stDrift)).exitCode = 1 ∧
      (cmd_start gitLin [] (some stDrift)).disk = some stDrift) ∧
    ((cmd_start gitDriftDirty ["a"] (some stDrift)).exitCode = 1 ∧
      (cmd_start gitDriftDirty ["a"] (some stDrift)).disk = some stDrift) ∧
    ((cmd_first gitLin "" (some stDrift)).exitCode = 1 ∧
      (cmd_first gitLin "" (some stDrift)).disk = some stDrift) :=
  C3_precondition_errors gitLin gitDriftDirty gitLin rfl rfl
    (some stDrift) none rfl stDrift rfl rfl emptyState rfl stDrift rfl
    (cmd_next gitLin) (fun _ => 0) false ["a"] ["true"]

theorem pythonGet_nonneg (l : List String) (i : Int) (h0 : 0 ≤ i) :
    pythonGet l i = l.get? i.toNat := by
  rw [pythonGet, if_pos h0]

/-- An in-range non-negative Python index hits an element. -/
theorem pythonGet_some (l : List String) (i : Int) (h0 : 0 ≤ i)
    (h1 : i < (l.length : Int)) : ∃ t, pythonGet l i = some t := by
  rw [pythonGet_nonneg l i h0]
  have h2 : i.toNat < l.length := by omega
  exact ⟨l.get ⟨i.toNat, h2⟩, List.get?_eq_get h2⟩

/-- Advancing `next` step: with a clean tree, a memoized non-empty
sequence and an index strictly below the last position (or the fresh
sentinel `-1`), `next` checks out the element at `index + 1`, persists
`index + 1`, and exits 0. -/
theorem cmd_next_adv (git : GitRepo) (st : IterState) (seq : List String)
    (hc : git.clean = true) (hf : truthyStr st.first = true)
    (hl : truthyStr st.last = true) (hs : st.sequence = some seq)
    (hne : seq ≠ []) (hlo : -1 ≤ st.index)
    (hhi : st.index < (seq.length : Int) - 1) :
    (cmd_next git (some st)).exitCode = 0 ∧
    (∃ t, seq.get? (st.index + 1).toNat = some t ∧
      (cmd_next git (some st)).checkouts = [t]) ∧
    ∃ st2, (cmd_next git (some st)).disk = some st2 ∧
      st2 = { st with index := st.index + 1, warned_head := st2.warned_head } := by
  have hE : ensure_state_exists (some st) = some st := by
    rw [ensure_state_exists, if_pos (by simp [hf, hl])]
  obtain ⟨t, ht⟩ : ∃ t, pythonGet seq (st.index + 1) = some t :=
    pythonGet_some seq _ (by omega) (by omega)
  have hget : seq.get? (st.index + 1).toNat = some t := by
    rw [← pythonGet_nonneg seq _ (by omega)]
    exact ht
  rw [cmd_next, hE]
  obtain ⟨st1, b, hmw⟩ : ∃ st1 b, maybe_warn_last_moved git st = (st1, b) :=
    ⟨_, _, rfl⟩
  have hsh : st1 = st ∨ st1 = { st with warned_head := some git.headSha } := by
    have h := maybe_warn_shape git st
    rw [hmw] at h
    exact h
  have hs1 : st1.sequence = some seq := by
    rcases hsh with h | h <;> rw [h] <;> exact hs
  have hi1 : st1.index = st.index := by
    rcases hsh with h | h <;> rw [h]
  simp only [hmw, hc, hs1, truthySeq, hne, ne_eq, not_false_eq_true, decide_True,
    Bool.true_eq_false, if_false, ite_true, ite_false, Option.getD_some, hi1,
    Bool.not_true, Bool.false_eq_true, if_true]
  rw [if_pos (Or.inr hhi)]
  have hni : (if st.index = -1 then (0 : Int) else st.index + 1) = st.index + 1 := by
    split <;> omega
  rw [hni, ht]
  refine ⟨rfl, ⟨t, hget, rfl⟩, ⟨_, rfl, ?_⟩⟩
  rcases hsh with h | h <;> rw [h] <;> simp [hs]

/-- No-op `next` step: at the last position (or beyond, index not `-1`),
`next` performs no checkout, reports "already at last commit", exits 0,
and the persisted index is unchanged. -/
theorem cmd_next_noop (git : GitRepo) (st : IterState) (seq : List String)
    (hc : git.clean = true) (hf : truthyStr st.first = true)
    (hl : truthyStr st.last = true) (hs : st.sequence = some seq)
    (hne : seq ≠ []) (hm1 : st.index ≠ -1)
    (hhi : (seq.length : Int) - 1 ≤ st.index) :
    (cmd_next git (some st)).exitCode = 0 ∧
    (cmd_next git (some st)).checkouts = [] ∧
    (cmd_next git (some st)).out = [.alreadyLast] ∧
    ∃ st2, (cmd_next git (some st)).disk = some st2 ∧
      st2 = { st with warned_head := st2.warned_head } := by
  have hE : ensure_state_exists (some st) = some st := by
    rw [ensure_state_exists, if_pos (by simp [hf, hl])]
  rw [cmd_next, hE]
  obtain ⟨st1, b, hmw⟩ : ∃ st1 b, maybe_warn_last_moved git st = (st1, b) :=
    ⟨_, _, rfl⟩
  have hsh : st1 = st ∨ st1 = { st with warned_head := some git.headSha } := by
    have h := maybe_warn_shape git st
    rw [hmw] at h
    exact h
  have hs1 : st1.sequence = some seq := by
    rcases hsh with h | h <;> rw [h] <;> exact hs
  have hi1 : st1.index = st.index := by
    rcases hsh with h | h <;> rw [h]
  simp only [hmw, hc, hs1, truthySeq, hne, ne_eq, not_false_eq_true, decide_True,
    Bool.true_eq_false, if_false, ite_true, ite_false, Option.getD_some, hi1,
    Bool.not_true, Bool.false_eq_true, if_true]
  rw [if_neg (by push_neg; exact ⟨hm1, by omega⟩)]
  refine ⟨rfl, rfl, rfl, ?_⟩
  cases b with
  | false => exact ⟨st, rfl, rfl⟩
  | true =>
    refine ⟨st1, rfl, ?_⟩
    rcases hsh with h | h <;> rw [h]

/-- After `k` clean `next` invocations the persisted index has advanced
by `k`, clamped at the last position; all other fields except the
`warned_head` bookkeeping are untouched. -/
theorem next_iter_state (gits : List GitRepo) (st : IterState)
    (seq : List String) (hall : ∀ g ∈ gits, g.clean = true)
    (hf : truthyStr st.first = true) (hl : truthyStr st.last = true)
    (hs : st.sequence = some seq) (hne : seq ≠ [])
    (hlo : -1 ≤ st.index) (hhi : st.index ≤ (seq.length : Int) - 1) :
    ∃ st2, next_iter gits (some st) = some st2 ∧
      st2 = { st with index := st2.index, warned_head := st2.warned_head } ∧
      st2.index = min (st.index + gits.length) ((seq.length : Int) - 1) := by
  induction gits generalizing st with
  | nil =>
    refine ⟨st, rfl, rfl, ?_⟩
    simp only [List.length_nil, Nat.cast_zero, add_zero]
    omega
  | cons g rest ih =>
    have hg : g.clean = true := hall g (by simp)
    have hrest : ∀ x ∈ rest, x.clean = true := fun x hx => hall x (by simp [hx])
    have hn1 : 1 ≤ (seq.length : Int) := by
      have := List.length_pos.2 hne
      omega
    rw [next_iter]
    by_cases hend : st.index < (seq.length : Int) - 1
    · obtain ⟨h0, ⟨t, ht, hco⟩, st2, hdisk, hrec⟩ :=
        cmd_next_adv g st seq hg hf hl hs hne hlo hend
    
      rw [hdisk]
      have hf2 : truthyStr st2.first = true := by rw [hrec]; exact hf
      have hl2 : truthyStr st2.last = true := by rw [hrec]; exact hl
      have hs2 : st2.sequence = some seq := by rw [hrec]; exact hs
      have hi2 : st2.index = st.index + 1 := by
        conv_lhs => rw [hrec]
      obtain ⟨st3, h1, h2, h3⟩ := ih st2 hrest hf2 hl2 hs2
        (by omega) (by omega)
      refine ⟨st3, h1, ?_, ?_⟩
      · rw [h2, hrec]
      · rw [h3, hi2]
        simp only [List.length_cons]
        push_cast
        omega
    · have hm1 : st.index ≠ -1 := by omega
      obtain ⟨h0, hco, hout, st2, hdisk, hrec⟩ :=
        cmd_next_noop g st seq hg hf hl hs hne hm1 (by omega)
      rw [hdisk]
      have hf2 : truthyStr st2.first = true := by rw [hrec]; exact hf
      have hl2 : truthyStr st2.last = true := by rw [hrec]; exact hl
      have hs2 : st2.sequence = some seq := by rw [hrec]; exact hs
      have hi2 : st2.index = st.index := by
        conv_lhs => rw [hrec]
      obtain ⟨st3, h1, h2, h3⟩ := ih st2 hrest hf2 hl2 hs2
        (by omega) (by omega)
      refine ⟨st3, h1, ?_, ?_⟩
      · rw [h2, hrec]
      · rw [h3, hi2]
        simp only [List.length_cons]
        push_cast
        omega

/-- C1: the `next` transition rule — from the fresh sentinel `-1` the
new index is 0; from an index strictly below the last position the new
index is `index + 1`; otherwise `next` performs no checkout, reports
"already at last commit", exits 0 and leaves the index unchanged.
Consequently, iterating `next` from a freshly started state advances the
persisted index one position per call, the `k`-th call (0-based) checks
out `sequence[k]`, and once the last position is reached further calls
are no-ops. -/
theorem C1_next_transition (git : GitRepo) (st : IterState)
    (seq : List String) (hc : git.clean = true)
    (hf : truthyStr st.first = true) (hl : truthyStr st.last = true)
    (hs : st.sequence = some seq) (hne : seq ≠ []) :
    (st.index = -1 →
      (cmd_next git (some st)).exitCode = 0 ∧
      (∃ t, seq.get? 0 = some t ∧ (cmd_next git (some st)).checkouts = [t]) ∧
      ∃ st2, (cmd_next git (some st)).disk = some st2 ∧ st2.index = 0 ∧
        st2.sequence = some seq) ∧
    (0 ≤ st.index → st.index < (seq.length : Int) - 1 →
      (cmd_next git (some st)).exitCode = 0 ∧
      (∃ t, seq.get? (st.index + 1).toNat = some t ∧
        (cmd_next git (some st)).checkouts = [t]) ∧
      ∃ st2, (cmd_next git (some st)).disk = some st2 ∧
        st2.index = st.index + 1 ∧ st2.sequence = some seq) ∧
    (st.index ≠ -1 → (seq.length : Int) - 1 ≤ st.index →
      (cmd_next git (some st)).exitCode = 0 ∧
      (cmd_next git (some st)).checkouts = [] ∧
      (cmd_next git (some st)).out = [.alreadyLast] ∧
      ∃ st2, (cmd_next git (some st)).disk = some st2 ∧
        st2.index = st.index ∧ st2.sequence = some seq) ∧
    (st.index = -1 →
      ∀ gits : List GitRepo, (∀ g ∈ gits, g.clean = true) →
        (∃ st2, next_iter gits (some st) = some st2 ∧ st2.sequence = some seq ∧
          st2.index = min (gits.length : Int) (seq.length : Int) - 1) ∧
        (∀ g2 : GitRepo, g2.clean = true → gits.length < seq.length →
          ∃ t, seq.get? gits.length = some t ∧
            (cmd_next g2 (next_iter gits (some st))).checkouts = [t]) ∧
        (∀ g2 : GitRepo, g2.clean = true → seq.length ≤ gits.length →
          (cmd_next g2 (next_iter gits (some st))).checkouts = [] ∧
          (cmd_next g2 (next_iter gits (some st))).out = [.alreadyLast] ∧
          ∃ st2, (cmd_next g2 (next_iter gits (some st))).disk = some st2 ∧
            st2.index = (seq.length : Int) - 1)) := by
  have hn1 : 1 ≤ (seq.length : Int) := by
    have := List.length_pos.2 hne
    omega
  refine ⟨?_, ?_, ?_, ?_⟩
  · intro hidx
    obtain ⟨h0, ⟨t, ht, hco⟩, st2, hdisk, hrec⟩ :=
      cmd_next_adv git st seq hc hf hl hs hne (by omega) (by omega)
    rw [hidx] at ht
    refine ⟨h0, ⟨t, by simpa using ht, hco⟩, st2, hdisk, ?_, ?_⟩
    · conv_lhs => rw [hrec]
      show st.index + 1 = 0
      omega
    · rw [hrec]
      exact hs
  · intro h0i hhi
    obtain ⟨h0, ⟨t, ht, hco⟩, st2, hdisk, hrec⟩ :=
      cmd_next_adv git st seq hc hf hl hs hne (by omega) hhi
    refine ⟨h0, ⟨t, ht, hco⟩, st2, hdisk, ?_, ?_⟩
    · conv_lhs => rw [hrec]
    · rw [hrec]
      exact hs
  · intro hm1 hhi
    obtain ⟨h0, hco, hout, st2, hdisk, hrec⟩ :=
      cmd_next_noop git st seq hc hf hl hs hne hm1 hhi
    refine ⟨h0, hco, hout, st2, hdisk, ?_, ?_⟩
    · conv_lhs => rw [hrec]
    · rw [hrec]
      exact hs
  · intro hidx gits hall
    obtain ⟨st2, hit, hrec, hi2⟩ :=
      next_iter_state gits st seq hall hf hl hs hne (by omega) (by omega)
    have hf2 : truthyStr st2.first = true := by rw [hrec]; exact hf
    have hl2 : truthyStr st2.last = true := by rw [hrec]; exact hl
    have hs2 : st2.sequence = some seq := by rw [hrec]; exact hs
    rw [hidx] at hi2
    refine ⟨⟨st2, hit, hs2, by omega⟩, ?_, ?_⟩
    · intro g2 hg2 hlen
      obtain ⟨h0, ⟨t, ht, hco⟩, st3, hdisk, hrec3⟩ :=
        cmd_next_adv g2 st2 seq hg2 hf2 hl2 hs2 hne (by omega) (by omega)
      have hk : (st2.index + 1).toNat = gits.length := by omega
      rw [hk] at ht
      rw [hit]
      exact ⟨t, ht, hco⟩
    · intro g2 hg2 hlen
      obtain ⟨h0, hco, hout, st3, hdisk, hrec3⟩ :=
        cmd_next_noop g2 st2 seq hg2 hf2 hl2 hs2 hne (by omega) (by omega)
      rw [hit]
      refine ⟨hco, hout, st3, hdisk, ?_⟩
      conv_lhs => rw [hrec3]
      show st2.index = (seq.length : Int) - 1
      omega

/-- Witness for `C1_next_transition`: the first `next` on a freshly
started two-commit sequence checks out element 0. -/
theorem C1_next_transition_witness :
    (cmd_next gitLin
        (some ⟨some "main", some "b", some "a", some "b", [],
          some ["a", "b"], -1, none⟩)).exitCode = 0 ∧
    (∃ t, ["a", "b"].get? 0 = some t ∧
      (cmd_next gitLin
        (some ⟨some "main", some "b", some "a", some "b", [],
          some ["a", "b"], -1, none⟩)).checkouts = [t]) ∧
    ∃ st2, (cmd_next gitLin
        (some ⟨some "main", some "b", some "a", some "b", [],
          some ["a", "b"], -1, none⟩)).disk = some st2 ∧ st2.index = 0 ∧
      st2.sequence = some ["a", "b"] :=
  (C1_next_transition gitLin
    ⟨some "main", some "b", some "a", some "b", [], some ["a", "b"], -1, none⟩
    ["a", "b"] rfl (by decide) (by decide) rfl (by decide)).1 rfl

/-- One `prev` step from an existing state with a memoized non-empty
sequence.  `j` is the effective position the handler computes: the stored
index, or — from the fresh sentinel `-1` — the position of the currently
checked-out commit in the sequence (0 when absent).  If `j > 0` the
element at `j - 1` is checked out and persisted; otherwise the handler
reports "already at first commit" and persists index 0. -/
theorem cmd_prev_step (git : GitRepo) (st : IterState) (seq : List String)
    (j : Int) (hc : git.clean = true) (hs : st.sequence = some seq)
    (hne : seq ≠ [])
    (hj : (if st.index = -1 then
            (if git.headSha ∈ seq then (seq.indexOf git.headSha : Int) else 0)
          else st.index) = j)
    (hjb : j ≤ (seq.length : Int)) :
    (0 < j →
      (cmd_prev git (some st)).exitCode = 0 ∧
      (∃ t, seq.get? (j - 1).toNat = some t ∧
        (cmd_prev git (some st)).checkouts = [t]) ∧
      ∃ st2, (cmd_prev git (some st)).disk = some st2 ∧
        st2 = { st with index := j - 1, warned_head := st2.warned_head }) ∧
    (j ≤ 0 →
      (cmd_prev git (some st)).exitCode = 0 ∧
      (cmd_prev git (some st)).checkouts = [] ∧
      (cmd_prev git (some st)).out = [.alreadyFirst] ∧
      ∃ st2, (cmd_prev git (some st)).disk = some st2 ∧
        st2 = { st with index := 0, warned_head := st2.warned_head }) := by
  unfold cmd_prev
  rw [if_neg (by simp [hc])]
  obtain ⟨st1, b, hmw⟩ : ∃ st1 b, maybe_warn_last_moved git st = (st1, b) :=
    ⟨_, _, rfl⟩
  have hsh : st1 = st ∨ st1 = { st with warned_head := some git.headSha } := by
    have h := maybe_warn_shape git st
    rw [hmw] at h
    exact h
  have hs1 : st1.sequence = some seq := by
    rcases hsh with h | h <;> rw [h] <;> exact hs
  have hi1 : st1.index = st.index := by
    rcases hsh with h | h <;> rw [h]
  simp only [hmw, hs1, truthySeq, hne, ne_eq, not_false_eq_true, decide_True,
    Bool.true_eq_false, if_false, ite_true, ite_false, Option.getD_some, hi1,
    Bool.not_true, Bool.false_eq_true, if_true]
  rw [hj]
  constructor
  · intro hpos
    rw [if_pos hpos]
    obtain ⟨t, ht⟩ : ∃ t, pythonGet seq (j - 1) = some t :=
      pythonGet_some seq _ (by omega) (by omega)
    have hget : seq.get? (j - 1).toNat = some t := by
      rw [← pythonGet_nonneg seq _ (by omega)]
      exact ht
    rw [ht]
    refine ⟨rfl, ⟨t, hget, rfl⟩, ⟨_, rfl, ?_⟩⟩
    rcases hsh with h | h <;> rw [h] <;> simp [hs]
  · intro hle
    rw [if_neg (by omega)]
    refine ⟨rfl, rfl, rfl, ⟨_, rfl, ?_⟩⟩
    rcases hsh with h | h <;> rw [h] <;> simp [hs]

/-- After `k` clean `prev` invocations from a non-negative index the
persisted index has decreased by `k`, clamped at 0; all fields except
`warned_head` bookkeeping are untouched. -/
theorem prev_iter_state (gits : List GitRepo) (st : IterState)
    (seq : List String) (hall : ∀ g ∈ gits, g.clean = true)
    (hs : st.sequence = some seq) (hne : seq ≠ [])
    (hlo : 0 ≤ st.index) (hhi : st.index ≤ (seq.length : Int) - 1) :
    ∃ st2, prev_iter gits (some st) = some st2 ∧
      st2 = { st with index := st2.index, warned_head := st2.warned_head } ∧
      st2.index = max (st.index - gits.length) 0 := by
  induction gits generalizing st with
  | nil =>
    refine ⟨st, rfl, rfl, ?_⟩
    simp only [List.length_nil, Nat.cast_zero, sub_zero]
    omega
  | cons g rest ih =>
    have hg : g.clean = true := hall g (by simp)
    have hrest : ∀ x ∈ rest, x.clean = true := fun x hx => hall x (by simp [hx])
    rw [prev_iter]
    by_cases hpos : 0 < st.index
    · obtain ⟨h0, ⟨t, ht, hco⟩, st2, hdisk, hrec⟩ :=
        (cmd_prev_step g st seq st.index hg hs hne
          (by rw [if_neg (by omega)]) (by omega)).1 hpos
      rw [hdisk]
      have hs2 : st2.sequence = some seq := by rw [hrec]; exact hs
      have hi2 : st2.index = st.index - 1 := by
        conv_lhs => rw [hrec]
      obtain ⟨st3, h1, h2, h3⟩ := ih st2 hrest hs2 (by omega) (by omega)
      refine ⟨st3, h1, ?_, ?_⟩
      · rw [h2, hrec]
      · rw [h3, hi2]
        simp only [List.length_cons]
        push_cast
        omega
    · have hz : st.index = 0 := by omega
      obtain ⟨h0, hco, hout, st2, hdisk, hrec⟩ :=
        (cmd_prev_step g st seq st.index hg hs hne
          (by rw [if_neg (by omega)]) (by omega)).2 (by omega)
      rw [hdisk]
      have hs2 : st2.sequence = some seq := by rw [hrec]; exact hs
      have hi2 : st2.index = 0 := by
        conv_lhs => rw [hrec]
      obtain ⟨st3, h1, h2, h3⟩ := ih st2 hrest hs2 (by omega) (by omega)
      refine ⟨st3, h1, ?_, ?_⟩
      · rw [h2, hrec]
      · rw [h3, hi2, hz]
        simp only [List.length_cons]
        push_cast
        omega

/-- C8: `prev` clamps the index at 0 — from a positive index it steps to
`index - 1` checking out that element; at index 0 it reports "already at
first commit" without an error (exit 0), performs no checkout and leaves
the index at 0.  Iterating `prev` from the last position walks back to 0
one step per call, and further calls are no-ops at index 0. -/
theorem C8_prev_clamps_at_zero (git : GitRepo) (st : IterState)
    (seq : List String) (hc : git.clean = true)
    (hs : st.sequence = some seq) (hne : seq ≠ []) :
    (1 ≤ st.index → st.index ≤ (seq.length : Int) - 1 →
      (cmd_prev git (some st)).exitCode = 0 ∧
      (∃ t, seq.get? (st.index - 1).toNat = some t ∧
        (cmd_prev git (some st)).checkouts = [t]) ∧
      ∃ st2, (cmd_prev git (some st)).disk = some st2 ∧
        st2.index = st.index - 1 ∧ st2.sequence = some seq) ∧
    (st.index = 0 →
      (cmd_prev git (some st)).exitCode = 0 ∧
      (cmd_prev git (some st)).checkouts = [] ∧
      (cmd_prev git (some st)).out = [.alreadyFirst] ∧
      ∃ st2, (cmd_prev git (some st)).disk = some st2 ∧
        st2.index = 0 ∧ st2.sequence = some seq) ∧
    (st.index = (seq.length : Int) - 1 →
      ∀ gits : List GitRepo, (∀ g ∈ gits, g.clean = true) →
        (∃ st2, prev_iter gits (some st) = some st2 ∧ st2.sequence = some seq ∧
          st2.index = max ((seq.length : Int) - 1 - gits.length) 0) ∧
        (∀ g2 : GitRepo, g2.clean = true → seq.length - 1 ≤ gits.length →
          (cmd_prev g2 (prev_iter gits (some st))).exitCode = 0 ∧
          (cmd_prev g2 (prev_iter gits (some st))).checkouts = [] ∧
          (cmd_prev g2 (prev_iter gits (some st))).out = [.alreadyFirst] ∧
          ∃ st2, (cmd_prev g2 (prev_iter gits (some st))).disk = some st2 ∧
            st2.index = 0)) := by
  have hn1 : 1 ≤ (seq.length : Int) := by
    have := List.length_pos.2 hne
    omega
  refine ⟨?_, ?_, ?_⟩
  · intro h1 h2
    obtain ⟨h0, hco, st2, hdisk, hrec⟩ :=
      (cmd_prev_step git st seq st.index hc hs hne
        (by rw [if_neg (by omega)]) (by omega)).1 (by omega)
    refine ⟨h0, hco, st2, hdisk, ?_, ?_⟩
    · conv_lhs => rw [hrec]
    · rw [hrec]
      exact hs
  · intro hz
    obtain ⟨h0, hco, hout, st2, hdisk, hrec⟩ :=
      (cmd_prev_step git st seq st.index hc hs hne
        (by rw [if_neg (by omega)]) (by omega)).2 (by omega)
    refine ⟨h0, hco, hout, st2, hdisk, ?_, ?_⟩
    · conv_lhs => rw [hrec]
    · rw [hrec]
      exact hs
  · intro hlast gits hall
    obtain ⟨st2, hit, hrec, hi2⟩ :=
      prev_iter_state gits st seq hall hs hne (by omega) (by omega)
    have hs2 : st2.sequence = some seq := by rw [hrec]; exact hs
    rw [hlast] at hi2
    refine ⟨⟨st2, hit, hs2, hi2⟩, ?_⟩
    intro g2 hg2 hk
    have hz2 : st2.index = 0 := by omega
    obtain ⟨h0, hco, hout, st3, hdisk, hrec3⟩ :=
      (cmd_prev_step g2 st2 seq st2.index hg2 hs2 hne
        (by rw [if_neg (by omega)]) (by omega)).2 (by omega)
    rw [hit]
    refine ⟨h0, hco, hout, st3, hdisk, ?_⟩
    conv_lhs => rw [hrec3]

/-- Witness for `C8_prev_clamps_at_zero`: from index 1 in a two-commit
sequence, `prev` steps back to element 0. -/
theorem C8_prev_clamps_at_zero_witness :
    (cmd_prev gitLin
        (some ⟨some "main", some "b", some "a", some "b", [],
          some ["a", "b"], 1, none⟩)).exitCode = 0 ∧
    (∃ t, ["a", "b"].get? ((1 : Int) - 1).toNat = some t ∧
      (cmd_prev gitLin
        (some ⟨some "main", some "b", some "a", some "b", [],
          some ["a", "b"], 1, none⟩)).checkouts = [t]) ∧
    ∃ st2, (cmd_prev gitLin
        (some ⟨some "main", some "b", some "a", some "b", [],
          some ["a", "b"], 1, none⟩)).disk = some st2 ∧
      st2.index = (1 : Int) - 1 ∧ st2.sequence = some ["a", "b"] :=
  (C8_prev_clamps_at_zero gitLin
    ⟨some "main", some "b", some "a", some "b", [], some ["a", "b"], 1, none⟩
    ["a", "b"] rfl rfl (by decide)).1 (by decide) (by decide)

/-- C9: `prev` at the fresh sentinel `-1` locates the currently
checked-out commit in the sequence: at position `p > 0` it checks out the
element at `p - 1` and persists `p - 1`; at position 0, or when HEAD does
not occur in the sequence at all, it performs no checkout, reports
"already at first commit", and persists index 0. -/
theorem C9_prev_from_head (git : GitRepo) (st : IterState)
    (seq : List String) (hc : git.clean = true)
    (hs : st.sequence = some seq) (hne : seq ≠ [])
    (hidx : st.index = -1) :
    (∀ p : Nat, git.headSha ∈ seq → seq.indexOf git.headSha = p → 0 < p →
      (cmd_prev git (some st)).exitCode = 0 ∧
      (∃ t, seq.get? (p - 1) = some t ∧
        (cmd_prev git (some st)).checkouts = [t]) ∧
      ∃ st2, (cmd_prev git (some st)).disk = some st2 ∧
        st2.index = (p : Int) - 1 ∧ st2.sequence = some seq) ∧
    ((git.headSha ∉ seq ∨ seq.indexOf git.headSha = 0) →
      (cmd_prev git (some st)).exitCode = 0 ∧
      (cmd_prev git (some st)).checkouts = [] ∧
      (cmd_prev git (some st)).out = [.alreadyFirst] ∧
      ∃ st2, (cmd_prev git (some st)).disk = some st2 ∧
        st2.index = 0 ∧ st2.sequence = some seq) := by
  constructor
  · intro p hmem hp hpos
    have hplen : p < seq.length := by
      rw [← hp]
      exact List.indexOf_lt_length.2 hmem
    obtain ⟨h0, ⟨t, ht, hco⟩, st2, hdisk, hrec⟩ :=
      (cmd_prev_step git st seq (p : Int) hc hs hne
        (by rw [if_pos hidx, if_pos hmem, hp]) (by omega)).1 (by omega)
    have htn : ((p : Int) - 1).toNat = p - 1 := by omega
    rw [htn] at ht
    refine ⟨h0, ⟨t, ht, hco⟩, st2, hdisk, ?_, ?_⟩
    · conv_lhs => rw [hrec]
    · rw [hrec]
      exact hs
  · intro hcase
    have hj : (if st.index = -1 then
          (if git.headSha ∈ seq then (seq.indexOf git.headSha : Int) else 0)
        else st.index) = 0 := by
      rw [if_pos hidx]
      rcases hcase with h | h
      · rw [if_neg h]
      · by_cases hm : git.headSha ∈ seq
        · rw [if_pos hm, h]
          rfl
        · rw [if_neg hm]
    obtain ⟨h0, hco, hout, st2, hdisk, hrec⟩ :=
      (cmd_prev_step git st seq 0 hc hs hne hj (by omega)).2 (by omega)
    refine ⟨h0, hco, hout, st2, hdisk, ?_, ?_⟩
    · conv_lhs => rw [hrec]
    · rw [hrec]
      exact hs

/-- Witness for `C9_prev_from_head`: HEAD is at position 1 of the
sequence, so a fresh `prev` checks out position 0. -/
theorem C9_prev_from_head_witness :
    (cmd_prev gitLin
        (some ⟨some "main", some "b", some "a", some "b", [],
          some ["a", "b"], -1, none⟩)).exitCode = 0 ∧
    (∃ t, ["a", "b"].get? (1 - 1) = some t ∧
      (cmd_prev gitLin
        (some ⟨some "main", some "b", some "a", some "b", [],
          some ["a", "b"], -1, none⟩)).checkouts = [t]) ∧
    ∃ st2, (cmd_prev gitLin
        (some ⟨some "main", some "b", some "a", some "b", [],
          some ["a", "b"], -1, none⟩)).disk = some st2 ∧
      st2.index = (1 : Int) - 1 ∧ st2.sequence = some ["a", "b"] :=
  (C9_prev_from_head gitLin
    ⟨some "main", some "b", some "a", some "b", [], some ["a", "b"], -1, none⟩
    ["a", "b"] rfl rfl (by decide) rfl).1 1 (by decide) (by decide) (by decide)

/-- The first `k` positions of a list, enumerated through `get?`. -/
theorem filterMap_range_get (l : List String) :
    ∀ k : Nat, k ≤ l.length → (List.range k).filterMap l.get? = l.take k := by
  intro k
  induction k with
  | zero => intro _; rfl
  | succ k ih =>
    intro hk
    have hkl : k < l.length := by omega
    rw [List.range_succ, List.filterMap_append, ih (by omega), List.take_succ]
    simp [List.filterMap_cons, ← List.get?_eq_getElem?, List.get?_eq_get hkl]

/-- Lemma: `run_loop` when the child succeeds at every listed index: exit 0,
every listed element checked out, the last listed index persisted. -/
theorem run_loop_all_ok (git : GitRepo) (child : String → Nat)
    (seq : List String) (order : List Nat) :
    ∀ (st : IterState) (disk : Option IterState),
    (∀ i ∈ order, ∃ s, seq.get? i = some s ∧ child s = 0) →
    (run_loop git child false seq st disk order).exitCode = 0 ∧
    (run_loop git child false seq st disk order).checkouts =
      order.filterMap seq.get? ∧
    (run_loop git child false seq st disk order).disk =
      (match order.getLast? with
       | none => disk
       | some k => some { st with index := (k : Int) }) := by
  induction order with
  | nil =>
    intro st disk _
    exact ⟨rfl, rfl, rfl⟩
  | cons i rest ih =>
    intro st disk h
    obtain ⟨s, hsg, hcz⟩ := h i (by simp)
    obtain ⟨ih1, ih2, ih3⟩ := ih { st with index := (i : Int) }
      (some { st with index := (i : Int) }) (fun j hj => h j (by simp [hj]))
    rw [run_loop, hsg]
    simp only [Bool.false_eq_true, if_false, ite_false, hcz, ne_eq,
      not_true_eq_false, not_false_eq_true, reduceIte]
    refine ⟨ih1, ?_, ?_⟩
    · rw [ih2, List.filterMap_cons, hsg]
    · rw [ih3]
      cases rest with
      | nil => rfl
      | cons j rest2 =>
        rcases hgl : (j :: rest2).getLast? with _ | k
        · exact absurd hgl (by simp)
        · rw [List.getLast?_cons_cons, hgl]

/-- Lemma: `run_loop` when the child succeeds at every index of `pre` and fails
at `k`: iteration stops at `k`, exit code is the child's, exactly the
elements of `pre` and then `seq[k]` are checked out, index `k` is
persisted (before the failing command ran). -/
theorem run_loop_fails (git : GitRepo) (child : String → Nat)
    (seq : List String) (pre : List Nat) :
    ∀ (k : Nat) (rest : List Nat) (st : IterState) (disk : Option IterState)
      (s : String),
    (∀ i ∈ pre, ∃ x, seq.get? i = some x ∧ child x = 0) →
    seq.get? k = some s → child s ≠ 0 →
    (run_loop git child false seq st disk (pre ++ k :: rest)).exitCode =
      child s ∧
    (run_loop git child false seq st disk (pre ++ k :: rest)).checkouts =
      pre.filterMap seq.get? ++ [s] ∧
    (run_loop git child false seq st disk (pre ++ k :: rest)).disk =
      some { st with index := (k : Int) } ∧
    (run_loop git child false seq st disk (pre ++ k :: rest)).err =
      [.cmdExited (child s) s] := by
  induction pre with
  | nil =>
    intro k rest st disk s _ hsg hnz
    rw [List.nil_append, run_loop, hsg]
    simp [hnz]
  | cons i pre2 ih =>
    intro k rest st disk s h hsg hnz
    obtain ⟨x, hxg, hxz⟩ := h i (by simp)
    obtain ⟨ih1, ih2, ih3, ih4⟩ := ih k rest { st with index := (i : Int) }
      (some { st with index := (i : Int) }) s
      (fun j hj => h j (by simp [hj])) hsg hnz
    rw [List.cons_append, run_loop, hxg]
    simp only [Bool.false_eq_true, if_false, ite_false, hxz, ne_eq,
      not_true_eq_false, not_false_eq_true, reduceIte]
    refine ⟨ih1, ?_, ?_, ih4⟩
    · rw [ih2, List.filterMap_cons, hxg]
      rfl
    · rw [ih3]

/-- C2: non-reverse `run` over a memoized sequence processes indices in
ascending order, checking out each commit and persisting its index before
invoking the command.  If every step succeeds, it exits 0 having checked
out the whole sequence, with the last index persisted.  If the command
first fails at position `k`, iteration stops immediately: exactly the
commits at positions `0..k` have been checked out, the persisted index is
`k` (written before the failing command ran), the failing commit is the
last checkout, and the invocation's exit code equals the child's. -/
theorem C2_run_ascending (git : GitRepo) (child : String → Nat)
    (cmdTokens : List String) (st : IterState) (seq : List String)
    (hc : git.clean = true) (hf : truthyStr st.first = true)
    (hs : st.sequence = some seq) (hne : seq ≠ [])
    (hct : cmdTokens ≠ [])
    (hcmd : (if cmdTokens.head? = some "--" then cmdTokens.tail
             else cmdTokens) ≠ []) :
    ((∀ s ∈ seq, child s = 0) →
      (cmd_run git child false cmdTokens (some st)).exitCode = 0 ∧
      (cmd_run git child false cmdTokens (some st)).checkouts = seq ∧
      ∃ st2, (cmd_run git child false cmdTokens (some st)).disk = some st2 ∧
        st2.index = (seq.length : Int) - 1 ∧ st2.sequence = some seq) ∧
    (∀ k : Nat, k < seq.length →
      (∀ j : Nat, j < k → ∀ x, seq.get? j = some x → child x = 0) →
      ∀ s, seq.get? k = some s → child s ≠ 0 →
      (cmd_run git child false cmdTokens (some st)).exitCode = child s ∧
      (cmd_run git child false cmdTokens (some st)).checkouts =
        seq.take (k + 1) ∧
      ∃ st2, (cmd_run git child false cmdTokens (some st)).disk = some st2 ∧
        st2.index = (k : Int) ∧ st2.sequence = some seq) := by
  obtain ⟨st1, b, hmw⟩ : ∃ st1 b, maybe_warn_last_moved git st = (st1, b) :=
    ⟨_, _, rfl⟩
  have hsh : st1 = st ∨ st1 = { st with warned_head := some git.headSha } := by
    have h := maybe_warn_shape git st
    rw [hmw] at h
    exact h
  have hs1 : st1.sequence = some seq := by
    rcases hsh with h | h <;> rw [h] <;> exact hs
  have hcd : (decide ((if cmdTokens.head? = some "--" then cmdTokens.tail
      else cmdTokens) = [])) = false := decide_eq_false hcmd
  have hred : cmd_run git child false cmdTokens (some st) =
      { run_loop git child false seq { st1 with sequence := some seq }
          (if b = true then some st1 else some st) (List.range seq.length) with
        err := (if b = true then [ErrMsg.headMovedWarning git.headSha] else [])
          ++ (run_loop git child false seq { st1 with sequence := some seq }
                (if b = true then some st1 else some st)
                (List.range seq.length)).err,
        buildCalls := [] } := by
    unfold cmd_run
    simp only [hf, hc, hmw, hs1, truthySeq, hne, ne_eq, not_false_eq_true,
      decide_True, Bool.true_eq_false, if_false, ite_true, ite_false,
      Option.getD_some, Bool.not_true, Bool.false_eq_true, if_true, hct, hcd]
  rw [hred]
  constructor
  · intro hall
    obtain ⟨h1, h2, h3⟩ := run_loop_all_ok git child seq (List.range seq.length)
      { st1 with sequence := some seq } (if b = true then some st1 else some st)
      (by
        intro i hi
        have hilt : i < seq.length := List.mem_range.1 hi
        refine ⟨seq.get ⟨i, hilt⟩, List.get?_eq_get hilt, hall _ ?_⟩
        exact seq.get_mem i hilt)
    refine ⟨h1, ?_, ?_⟩
    · show (run_loop _ _ _ _ _ _ _).checkouts = seq
      rw [h2, filterMap_range_get seq seq.length le_rfl, List.take_length]
    · have hm' : seq.length - 1 + 1 = seq.length := by
        have := List.length_pos.2 hne
        omega
      show ∃ st2, (run_loop _ _ _ _ _ _ _).disk = some st2 ∧ _
      rw [h3]
      have hgl : (List.range seq.length).getLast? = some (seq.length - 1) := by
        conv_lhs => rw [← hm']
        rw [List.range_succ, List.getLast?_concat]
      rw [hgl]
      refine ⟨_, rfl, ?_, rfl⟩
      show ((seq.length - 1 : Nat) : Int) = (seq.length : Int) - 1
      have := List.length_pos.2 hne
      omega
  · intro k hk hpre s hsg hnz
    have hsplit : List.range seq.length =
        List.range k ++ k :: List.range' (k + 1) (seq.length - k - 1) := by
      have h1 : List.range' k (seq.length - k) =
          k :: List.range' (k + 1) (seq.length - k - 1) := by
        have h0 := List.range'_succ k (seq.length - k - 1) 1
        rw [show seq.length - k - 1 + 1 = seq.length - k from by omega] at h0
        exact h0
      have h3 := List.range'_append 0 k (seq.length - k) 1
      rw [show 0 + 1 * k = k from by omega,
        show seq.length - k + k = seq.length from by omega] at h3
      rw [← h1, List.range_eq_range', List.range_eq_range']
      exact h3.symm
    obtain ⟨h1, h2, h3, _⟩ := run_loop_fails git child seq (List.range k) k
      (List.range' (k + 1) (seq.length - k - 1))
      { st1 with sequence := some seq } (if b = true then some st1 else some st)
      s
      (by
        intro i hi
        have hik : i < k := List.mem_range.1 hi
        have hilt : i < seq.length := by omega
        refine ⟨seq.get ⟨i, hilt⟩, List.get?_eq_get hilt, ?_⟩
        exact hpre i hik _ (List.get?_eq_get hilt))
      hsg hnz
    rw [hsplit]
    refine ⟨h1, ?_, ?_⟩
    · show (run_loop _ _ _ _ _ _ _).checkouts = seq.take (k + 1)
      rw [h2, filterMap_range_get seq k (by omega), List.take_succ]
      have : seq[k]? = some s := by
        rw [← List.get?_eq_getElem?]
        exact hsg
      rw [this]
      rfl
    · show ∃ st2, (run_loop _ _ _ _ _ _ _).disk = some st2 ∧ _
      rw [h3]
      exact ⟨_, rfl, rfl, rfl⟩

/-- Witness for `C2_run_ascending`: the command fails at position 1 of a
two-commit sequence; both commits are checked out, index 1 is persisted,
and the exit code is the child's. -/
theorem C2_run_ascending_witness :
    (cmd_run gitLin (fun s => if s = "b" then 3 else 0) false ["true"]
        (some ⟨some "main", some "b", some "a", some "b", [],
          some ["a", "b"], -1, none⟩)).exitCode =
      (fun s : String => if s = "b" then 3 else 0) "b" ∧
    (cmd_run gitLin (fun s => if s = "b" then 3 else 0) false ["true"]
        (some ⟨some "main", some "b", some "a", some "b", [],
          some ["a", "b"], -1, none⟩)).checkouts = ["a", "b"].take (1 + 1) ∧
    ∃ st2, (cmd_run gitLin (fun s => if s = "b" then 3 else 0) false ["true"]
        (some ⟨some "main", some "b", some "a", some "b", [],
          some ["a", "b"], -1, none⟩)).disk = some st2 ∧
      st2.index = ((1 : Nat) : Int) ∧ st2.sequence = some ["a", "b"] :=
  (C2_run_ascending gitLin (fun s => if s = "b" then 3 else 0) ["true"]
    ⟨some "main", some "b", some "a", some "b", [], some ["a", "b"], -1, none⟩
    ["a", "b"] rfl (by decide) rfl (by decide) (by decide) (by decide)).2
    1 (by decide) (by decide) "b" (by decide) (by decide)

/-- Lemma: `StrongInv` only looks at the `sequence` and `index` fields. -/
theorem strongInv_fields (st st' : IterState)
    (hseq : st'.sequence = st.sequence) (hidx : st'.index = st.index)
    (h : StrongInv (some st)) : StrongInv (some st') := by
  simp only [StrongInv] at h ⊢
  rw [hseq, hidx]
  exact h

/-- Lemma: `maybe_warn_last_moved` preserves `StrongInv`. -/
theorem strongInv_warn (git : GitRepo) (st st1 : IterState) (b : Bool)
    (hmw : maybe_warn_last_moved git st = (st1, b))
    (h : StrongInv (some st)) : StrongInv (some st1) := by
  have hsh := maybe_warn_shape git st
  rw [hmw] at hsh
  rcases hsh with hw | hw <;> subst hw
  · exact h
  · exact strongInv_fields st _ rfl rfl h

/-- The per-step loop of `run` preserves `StrongInv` when every listed
index is in range. -/
theorem strongInv_run_loop (git : GitRepo) (child : String → Nat)
    (ce : Bool) (seq : List String) :
    ∀ (order : List Nat) (st : IterState) (disk : Option IterState),
    (∀ i ∈ order, i < seq.length) → seq ≠ [] → st.sequence = some seq →
    StrongInv disk → StrongInv (run_loop git child ce seq st disk order).disk := by
  intro order
  induction order with
  | nil => intro st disk _ _ _ hd; exact hd
  | cons i rest ih =>
    intro st disk hord hne hseq hd
    have hil : i < seq.length := hord i (by simp)
    rw [run_loop]
    split
    · exact hd
    · rename_i sha heq
      have hst' : StrongInv (some { st with index := (i : Int) }) := by
        simp only [StrongInv]
        constructor
        · intro hcon
          rw [hseq] at hcon
          cases hcon
        · intro seq2 hs2
          rw [hseq] at hs2
          cases hs2
          refine ⟨hne, by omega, by omega⟩
      cases ce
      · rw [if_neg (by simp)]
        by_cases hcz : child sha ≠ 0
        · rw [if_pos hcz]
          exact hst'
        · rw [if_neg hcz]
          exact ih { st with index := (i : Int) } _
            (fun j hj => hord j (by simp [hj])) hne hseq hst'
      · rw [if_pos rfl]
        exact hst'

/-- Lemma: `cmd_first` preserves `StrongInv` (it always resets
`sequence := none`, `index := -1`). -/
theorem strongInv_first (git : GitRepo) (rev : String) (d : Option IterState)
    (h : StrongInv d) : StrongInv (cmd_first git rev d).disk := by
  unfold cmd_first
  split
  · exact h
  · split
    · exact h
    · refine ⟨fun _ => rfl, fun seq hs => by cases hs⟩

/-- Lemma: `cmd_last` preserves `StrongInv`. -/
theorem strongInv_last (git : GitRepo) (rev : Option String)
    (d : Option IterState) (h : StrongInv d) :
    StrongInv (cmd_last git rev d).disk := by
  unfold cmd_last
  split <;> dsimp only <;> split
  all_goals first
    | exact h
    | exact ⟨fun _ => rfl, fun seq hs => by cases hs⟩

/-- Lemma: `cmd_start` preserves `StrongInv` (a fresh state has a non-empty
built sequence and index `-1`). -/
theorem strongInv_start (git : GitRepo) (revs : List String)
    (d : Option IterState) (h : StrongInv d) :
    StrongInv (cmd_start git revs d).disk := by
  unfold cmd_start
  dsimp only
  split
  · exact h
  · split
    · exact h
    · split
      · exact h
      · split
        · exact h
        · split
          · exact h
          · exact h
          · rename_i seq heq
            have hne := build_ok_ne_nil _ _ _ _ _ heq
            have hpos : 1 ≤ (seq.length : Int) := by
              have := List.length_pos.2 hne
              omega
            constructor
            · intro hcon
              cases hcon
            · intro s hs
              cases hs
              refine ⟨hne, ?_, ?_⟩
              · show (-1 : Int) ≤ -1
                omega
              · show (-1 : Int) ≤ (seq.length : Int) - 1
                omega

/-- Lemma: `cmd_reset` preserves `StrongInv` (it clears the state or leaves it
unchanged). -/
theorem strongInv_reset (git : GitRepo) (rev : Option String)
    (d : Option IterState) (h : StrongInv d) :
    StrongInv (cmd_reset git rev d).disk := by
  cases d with
  | none =>
    unfold cmd_reset
    repeat' first
      | exact h
      | exact trivial
      | (rename_i heq2; cases heq2)
      | dsimp only
      | split
  | some st =>
    unfold cmd_reset
    repeat' first
      | exact h
      | exact trivial
      | (rename_i heq2; cases heq2)
      | dsimp only
      | split

/-- Lemma: `cmd_next` preserves `StrongInv`. -/
theorem strongInv_next (git : GitRepo) (d : Option IterState)
    (h : StrongInv d) : StrongInv (cmd_next git d).disk := by
  rw [cmd_next]
  cases hE : ensure_state_exists d with
  | none => exact h
  | some st0 =>
    obtain ⟨hd0, hf0, hl0⟩ := ensure_state_eq d st0 hE
    subst hd0
    obtain ⟨st1, b, hmw⟩ : ∃ st1 b, maybe_warn_last_moved git st0 = (st1, b) :=
      ⟨_, _, rfl⟩
    have h1 : StrongInv (some st1) := strongInv_warn git st0 st1 b hmw h
    have h1' : (st1.sequence = none → st1.index = -1) ∧
        ∀ seq, st1.sequence = some seq →
          seq ≠ [] ∧ -1 ≤ st1.index ∧ st1.index ≤ (seq.length : Int) - 1 := h1
    have hdisk1 : StrongInv (if b = true then some st1 else some st0) := by
      cases b
      · simpa using h
      · simpa using h1
    simp only [hmw]
    cases hcl : git.clean
    · rw [if_pos rfl]
      exact hdisk1
    · rw [if_neg (by simp)]
      cases hts : truthySeq st1.sequence
      · -- sequence not memoized: it is `none` and the index is `-1`
        have hseqn : st1.sequence = none := by
          rcases hq2 : st1.sequence with _ | s
          · rfl
          · exfalso
            have hsne := (h1'.2 s hq2).1
            rw [hq2] at hts
            simp only [truthySeq, ne_eq] at hts
            exact hsne (by simpa using hts)
        have hidx1 : st1.index = -1 := h1'.1 hseqn
        rcases hb : build_sequence git st1.first st1.last st1.pathspec
          with _ | e | seq
        · simp only [hts, hb, Bool.not_false, Bool.false_eq_true, if_false,
            ite_false, if_true, ite_true]
          exact hdisk1
        · simp only [hts, hb, Bool.not_false, Bool.false_eq_true, if_false,
            ite_false, if_true, ite_true]
          exact hdisk1
        · have hne2 := build_ok_ne_nil _ _ _ _ _ hb
          have hlen : 1 ≤ (seq.length : Int) := by
            have := List.length_pos.2 hne2
            omega
          simp only [hts, hb, Bool.not_false, Bool.false_eq_true, if_false,
            ite_false, if_true, ite_true]
          split
          case isFalse => exact hdisk1
          case isTrue hcond =>
            split
            case h_1 => exact hdisk1
            case h_2 target heq =>
              constructor
              · intro hcon
                cases hcon
              · intro s2 hs2
                cases hs2
                refine ⟨hne2, ?_, ?_⟩
                · show (-1 : Int) ≤ 0
                  omega
                · show (0 : Int) ≤ (seq.length : Int) - 1
                  omega
      · -- memoized sequence
        obtain ⟨s, hq⟩ : ∃ s, st1.sequence = some s := by
          rcases hq2 : st1.sequence with _ | s
          · rw [hq2] at hts
            simp [truthySeq] at hts
          · exact ⟨s, rfl⟩
        obtain ⟨hsne, hb1, hb2⟩ := h1'.2 s hq
        have hlen : 1 ≤ (s.length : Int) := by
          have := List.length_pos.2 hsne
          omega
        simp only [hts, hq, Option.getD_some, Bool.not_true,
          Bool.false_eq_true, if_false, ite_false, if_true, ite_true]
        split
        case isFalse => exact hdisk1
        case isTrue hcond =>
          split
          case h_1 => exact hdisk1
          case h_2 target heq =>
            constructor
            · intro hcon
              cases hcon
            · intro s2 hs2
              cases hs2
              refine ⟨hsne, ?_, ?_⟩
              · show (-1 : Int) ≤
                    (if st1.index = -1 then (0 : Int) else st1.index + 1)
                split <;> omega
              · show (if st1.index = -1 then (0 : Int) else st1.index + 1) ≤
                    (s.length : Int) - 1
                rcases hcond with hc | hc <;> split <;> omega

/-- The synthesize-state branch of `prev` establishes `StrongInv`. -/
theorem strongInv_prev_noState (git : GitRepo) :
    StrongInv (cmd_prev_noState git).disk := by
  unfold cmd_prev_noState
  rcases hL : git.revListRootToHead with _ | ⟨f, rest⟩
  · simp only [hL]
    exact trivial
  · simp only [hL]
    obtain ⟨i0, hi0⟩ : ∃ i0, (if git.headSha ∈ f :: rest
        then (f :: rest).indexOf git.headSha
        else (f :: rest).length - 1) = i0 := ⟨_, rfl⟩
    have hidx0 : i0 < (f :: rest).length := by
      rw [← hi0]
      split
      · exact List.indexOf_lt_length.2 (by assumption)
      · simp only [List.length_cons]
        omega
    rw [hi0]
    split
    case isTrue hpos =>
      split
      case h_1 => exact trivial
      case h_2 target heq =>
        constructor
        · intro hcon
          cases hcon
        · intro s2 hs2
          cases hs2
          refine ⟨by simp, ?_, ?_⟩
          · show (-1 : Int) ≤ ((i0 - 1 : Nat) : Int)
            omega
          · show ((i0 - 1 : Nat) : Int) ≤ ((f :: rest).length : Int) - 1
            have := hidx0
            simp only [List.length_cons] at this ⊢
            omega
    case isFalse hpos =>
      constructor
      · intro hcon
        cases hcon
      · intro s2 hs2
        cases hs2
        refine ⟨by simp, ?_, ?_⟩
        · show (-1 : Int) ≤ 0
          omega
        · show (0 : Int) ≤ ((f :: rest).length : Int) - 1
          simp only [List.length_cons]
          omega

/-- Lemma: `cmd_prev` preserves `StrongInv`. -/
theorem strongInv_prev (git : GitRepo) (d : Option IterState)
    (h : StrongInv d) : StrongInv (cmd_prev git d).disk := by
  unfold cmd_prev
  cases hcl : git.clean
  · rw [if_pos rfl]
    exact h
  · rw [if_neg (by simp)]
    cases d with
    | none => exact strongInv_prev_noState git
    | some st0 =>
      obtain ⟨st1, b, hmw⟩ : ∃ st1 b, maybe_warn_last_moved git st0 = (st1, b) :=
        ⟨_, _, rfl⟩
      have h1 : StrongInv (some st1) := strongInv_warn git st0 st1 b hmw h
      have h1' : (st1.sequence = none → st1.index = -1) ∧
          ∀ seq, st1.sequence = some seq →
            seq ≠ [] ∧ -1 ≤ st1.index ∧ st1.index ≤ (seq.length : Int) - 1 := h1
      have hdisk1 : StrongInv (if b = true then some st1 else some st0) := by
        cases b
        · simpa using h
        · simpa using h1
      simp only [hmw]
      cases hts : truthySeq st1.sequence
      · -- sequence not memoized: it is `none` and the index is `-1`
        have hseqn : st1.sequence = none := by
          rcases hq2 : st1.sequence with _ | s
          · rfl
          · exfalso
            have hsne := (h1'.2 s hq2).1
            rw [hq2] at hts
            simp only [truthySeq, ne_eq] at hts
            exact hsne (by simpa using hts)
        have hidx1 : st1.index = -1 := h1'.1 hseqn
        rcases hb : build_sequence git st1.first st1.last st1.pathspec
          with _ | e | seq
        · simp only [hts, hb, Bool.not_false, Bool.false_eq_true, if_false,
            ite_false, if_true, ite_true]
          exact hdisk1
        · simp only [hts, hb, Bool.not_false, Bool.false_eq_true, if_false,
            ite_false, if_true, ite_true]
          exact hdisk1
        · have hne2 := build_ok_ne_nil _ _ _ _ _ hb
          have hlen : 1 ≤ (seq.length : Int) := by
            have := List.length_pos.2 hne2
            omega
          simp only [hts, hb, Bool.not_false, Bool.false_eq_true, if_false,
            ite_false, if_true, ite_true, hidx1]
          obtain ⟨i2, hi2⟩ : ∃ i2, (if git.headSha ∈ seq
              then ((seq.indexOf git.headSha : Nat) : Int)
              else 0) = i2 := ⟨_, rfl⟩
          have hup : i2 ≤ (seq.length : Int) := by
            rw [← hi2]
            split
            · have := List.indexOf_lt_length.2 (by assumption :
                git.headSha ∈ seq)
              omega
            · omega
          rw [hi2]
          split
          case isTrue hpos =>
            split
            case h_1 => exact hdisk1
            case h_2 target heq =>
              constructor
              · intro hcon
                cases hcon
              · intro s2 hs2
                cases hs2
                refine ⟨hne2, ?_, ?_⟩
                · show (-1 : Int) ≤ i2 - 1
                  omega
                · show i2 - 1 ≤ (seq.length : Int) - 1
                  omega
          case isFalse hpos =>
            constructor
            · intro hcon
              cases hcon
            · intro s2 hs2
              cases hs2
              refine ⟨hne2, ?_, ?_⟩
              · show (-1 : Int) ≤ 0
                omega
              · show (0 : Int) ≤ (seq.length : Int) - 1
                omega
      · -- memoized sequence
        obtain ⟨s, hq⟩ : ∃ s, st1.sequence = some s := by
          rcases hq2 : st1.sequence with _ | s
          · rw [hq2] at hts
            simp [truthySeq] at hts
          · exact ⟨s, rfl⟩
        obtain ⟨hsne, hb1, hb2⟩ := h1'.2 s hq
        have hlen : 1 ≤ (s.length : Int) := by
          have := List.length_pos.2 hsne
          omega
        simp only [hts, hq, Option.getD_some, Bool.not_true,
          Bool.false_eq_true, if_false, ite_false, if_true, ite_true]
        obtain ⟨i2, hi2⟩ : ∃ i2, (if st1.index = -1 then
            (if git.headSha ∈ s then ((s.indexOf git.headSha : Nat) : Int)
             else 0)
            else st1.index) = i2 := ⟨_, rfl⟩
        have hup : i2 ≤ (s.length : Int) := by
          rw [← hi2]
          split
          · split
            · have := List.indexOf_lt_length.2 (by assumption :
                git.headSha ∈ s)
              omega
            · omega
          · omega
        rw [hi2]
        split
        case isTrue hpos =>
          split
          case h_1 => exact hdisk1
          case h_2 target heq =>
            constructor
            · intro hcon
              cases hcon
            · intro s2 hs2
              cases hs2
              refine ⟨hsne, ?_, ?_⟩
              · show (-1 : Int) ≤ i2 - 1
                omega
              · show i2 - 1 ≤ (s.length : Int) - 1
                omega
        case isFalse hpos =>
          constructor
          · intro hcon
            cases hcon
          · intro s2 hs2
            cases hs2
            refine ⟨hsne, ?_, ?_⟩
            · show (-1 : Int) ≤ 0
              omega
            · show (0 : Int) ≤ (s.length : Int) - 1
              omega

/-- Lemma: `cmd_run` preserves `StrongInv`. -/
theorem strongInv_run (git : GitRepo) (child : String → Nat) (reverse : Bool)
    (cmdTokens : List String) (d : Option IterState) (h : StrongInv d) :
    StrongInv (cmd_run git child reverse cmdTokens d).disk := by
  unfold cmd_run
  cases d with
  | none => exact h
  | some st0 =>
    obtain ⟨st1, b, hmw⟩ : ∃ st1 b, maybe_warn_last_moved git st0 = (st1, b) :=
      ⟨_, _, rfl⟩
    have h1 : StrongInv (some st1) := strongInv_warn git st0 st1 b hmw h
    have h1' : (st1.sequence = none → st1.index = -1) ∧
        ∀ seq, st1.sequence = some seq →
          seq ≠ [] ∧ -1 ≤ st1.index ∧ st1.index ≤ (seq.length : Int) - 1 := h1
    have hdisk1 : StrongInv (if b = true then some st1 else some st0) := by
      cases b
      · simpa using h
      · simpa using h1
    cases hf : truthyStr st0.first
    · simp only [hf, eq_self_iff_true, if_true, ite_true]
      exact h
    · cases hcl : git.clean
      · simp only [hf, Bool.true_eq_false, if_false, ite_false,
          eq_self_iff_true, if_true, ite_true]
        exact h
      · simp only [hf, hmw, Bool.true_eq_false, if_false, ite_false]
        have hord : ∀ (seq : List String), ∀ i ∈ (if reverse = true
            then (List.range seq.length).reverse
            else List.range seq.length), i < seq.length := by
          intro seq i hi
          split at hi
          · rw [List.mem_reverse] at hi
            exact List.mem_range.1 hi
          · exact List.mem_range.1 hi
        cases hts : truthySeq st1.sequence
        · -- sequence not memoized: it is `none` and the index is `-1`
          have hseqn : st1.sequence = none := by
            rcases hq2 : st1.sequence with _ | s
            · rfl
            · exfalso
              have hsne := (h1'.2 s hq2).1
              rw [hq2] at hts
              simp only [truthySeq, ne_eq] at hts
              exact hsne (by simpa using hts)
          have hidx1 : st1.index = -1 := h1'.1 hseqn
          rcases hb : build_sequence git st1.first st1.last st1.pathspec
            with _ | e | seq
          · simp only [hts, hb, Bool.not_false, Bool.false_eq_true, if_false,
              ite_false, if_true, ite_true]
            exact hdisk1
          · simp only [hts, hb, Bool.not_false, Bool.false_eq_true, if_false,
              ite_false, if_true, ite_true]
            exact hdisk1
          · have hne2 := build_ok_ne_nil _ _ _ _ _ hb
            have hlen : 1 ≤ (seq.length : Int) := by
              have := List.length_pos.2 hne2
              omega
            have hdisk2 : StrongInv (some { st1 with sequence := some seq }) := by
              constructor
              · intro hcon
                cases hcon
              · intro s2 hs2
                cases hs2
                refine ⟨hne2, ?_, ?_⟩
                · show (-1 : Int) ≤ st1.index
                  omega
                · show st1.index ≤ (seq.length : Int) - 1
                  omega
            simp only [hts, hb, Bool.not_false, Bool.false_eq_true, if_false,
              ite_false, if_true, ite_true]
            split
            · exact hdisk2
            · split
              · exact hdisk2
              · exact strongInv_run_loop git child _ seq _
                  { st1 with sequence := some seq } _ (hord seq) hne2 rfl hdisk2
        · -- memoized sequence
          obtain ⟨s, hq⟩ : ∃ s, st1.sequence = some s := by
            rcases hq2 : st1.sequence with _ | s
            · rw [hq2] at hts
              simp [truthySeq] at hts
            · exact ⟨s, rfl⟩
          obtain ⟨hsne, hb1, hb2⟩ := h1'.2 s hq
          have hdisk2 : StrongInv (some { st1 with sequence := some s }) := by
            constructor
            · intro hcon
              cases hcon
            · intro s2 hs2
              cases hs2
              refine ⟨hsne, ?_, ?_⟩
              · show (-1 : Int) ≤ st1.index
                omega
              · show st1.index ≤ (s.length : Int) - 1
                omega
          simp only [hts, hq, Option.getD_some, Bool.not_true,
            Bool.false_eq_true, if_false, ite_false, if_true, ite_true]
          split
          · exact hdisk1
          · split
            · exact hdisk1
            · exact strongInv_run_loop git child _ s _
                { st1 with sequence := some s } _ (hord s) hsne rfl hdisk1

/-- Every reachable disk state satisfies the strengthened invariant. -/
theorem strongInv_reachable (d : Option IterState) (h : Reachable d) :
    StrongInv d := by
  induction h with
  | initial => exact trivial
  | viaStart git revs h ih => exact strongInv_start git revs _ ih
  | viaFirst git rev h ih => exact strongInv_first git rev _ ih
  | viaLast git rev h ih => exact strongInv_last git rev _ ih
  | viaNext git h ih => exact strongInv_next git _ ih
  | viaPrev git h ih => exact strongInv_prev git _ ih
  | viaRun git child reverse cmdTokens h ih =>
    exact strongInv_run git child reverse cmdTokens _ ih
  | viaReset git rev h ih => exact strongInv_reset git rev _ ih

/-- C7: on every disk state the program can produce — the closure of
`start`, `first`, `last`, `next`, `prev`, `run` and `reset` from the
empty state — whenever the persisted `sequence` is non-null, the
persisted `index` lies within `[-1, len(sequence) - 1]`. -/
theorem C7_index_invariant (d : Option IterState) (h : Reachable d)
    (st : IterState) (seq : List String) (hd : d = some st)
    (hs : st.sequence = some seq) :
    -1 ≤ st.index ∧ st.index ≤ (seq.length : Int) - 1 := by
  have hstrong := strongInv_reachable d h
  subst hd
  have h2 : (st.sequence = none → st.index = -1) ∧
      ∀ s, st.sequence = some s →
        s ≠ [] ∧ -1 ≤ st.index ∧ st.index ≤ (s.length : Int) - 1 := hstrong
  exact ⟨(h2.2 seq hs).2.1, (h2.2 seq hs).2.2⟩

/-- Witness for `C7_index_invariant` at the state persisted by a `prev`
invocation that synthesized its own sequence. -/
theorem C7_index_invariant_witness :
    -1 ≤ (IterState.mk (some "main") (some "b") (some "a") (some "b") []
        (some ["a", "b"]) 0 none).index ∧
    (IterState.mk (some "main") (some "b") (some "a") (some "b") []
        (some ["a", "b"]) 0 none).index ≤
      ((["a", "b"] : List String).length : Int) - 1 :=
  C7_index_invariant _ (Reachable.viaPrev gitLin Reachable.initial) _
    ["a", "b"] (by decide) rfl

end GitIter
